import Mathlib

/-!
Verification development for the deadline-aware OFDMA multi-user scheduler
(DaMultiUserScheduler / DrrMultiUserScheduler) and the standalone min-cost-flow
matching tool (maximum_weighted_matching.cpp).

The definitions below are shallow embeddings of the C++ source:
machine unsigned 32-bit arithmetic is modeled as Nat with explicit reduction
modulo 2^32 where the C++ code can overflow, fatal errors (NS_FATAL_ERROR)
and nontermination are modeled with Option, and the stateful scheduler
engine is modeled as explicit state passing over a first-order state record.
-/

/-- Modulus of the C++ uint32_t type. -/
def u32Mod : Nat := 4294967296

/-- One entry of the PacketSchedule: the C++ code stores a
std.vector of 4 uint32 values with index 0 = arrivalRound, 1 = deadlineRound,
2 = penalty, 3 = station id (AID). -/
structure SchedEntry where
  arrival : Nat
  deadline : Nat
  penalty : Nat
  sta : Nat
deriving DecidableEq

/-- HeRu.RuType enumeration from the wifi module (tone counts). -/
inductive RuType where
  | ru26
  | ru52
  | ru106
  | ru242
  | ru484
  | ru996
  | ru2x996
deriving DecidableEq

/-- Mathematical least common multiple of a list (reference definition). -/
def listLcm (l : List Nat) : Nat := l.foldr Nat.lcm 1

/-! ## LCM

DaMultiUserScheduler.LCM (da-multi-user-scheduler.cc, lines 183-227; the
identical function appears in DrrMultiUserScheduler): it computes the maximum of
the int array, then loops a factor x from 2 up to that maximum; whenever at
least two array elements are divisible by x it divides all of them by x and
multiplies the uint32 accumulator res by x (without advancing x), otherwise it
increments x; finally it multiplies res by every (reduced) array element.  The
accumulator is uint32_t, so every multiplication is reduced mod 2^32.  The loop
has no iteration bound and does not terminate on some inputs (for example two
zero entries next to an entry at least 2), so the embedding carries fuel and
returns none when the fuel runs out; daLCM supplies fuel that is sufficient
whenever the C++ loop terminates (one unit per x increment plus one per
division pass, the latter bounded by the total element sum). -/

/-- Number of array elements divisible by x (size of the indexes vector). -/
def lcmDivCount (x : Nat) (arr : List Nat) : Nat :=
  (arr.filter (fun a => a % x == 0)).length

/-- One division pass of the LCM loop: every element divisible by x is divided
by x (the C++ collects the indexes first and then divides exactly those). -/
def lcmDivStep (x : Nat) (arr : List Nat) : List Nat :=
  arr.map (fun a => if a % x == 0 then a / x else a)

/-- Fueled embedding of the while loop of DaMultiUserScheduler.LCM.  State is
(arr, res, x); maxNum is the maximum computed before the loop and never
updated.  Returns the final (arr, res) or none if fuel runs out. -/
def lcmLoop : Nat → List Nat → Nat → Nat → Nat → Option (List Nat × Nat)
  | 0, _, _, _, _ => none
  | fuel + 1, arr, res, x, maxNum =>
      if x ≤ maxNum then
        if 2 ≤ lcmDivCount x arr then
          lcmLoop fuel (lcmDivStep x arr) (res * x % u32Mod) x maxNum
        else
          lcmLoop fuel arr res (x + 1) maxNum
      else
        some (arr, res)

/-- Maximum of the array as computed by the first loop of LCM. -/
def lcmMaxNum (arr : List Nat) : Nat :=
  arr.foldl (fun m a => if m < a then a else m) 0

/-- Fuel sufficient for every terminating run of the C++ loop: one unit per
increment of x (at most maxNum) plus one unit per division pass (every
division pass strictly decreases the element sum when it terminates at all)
plus the final check. -/
def lcmFuel (arr : List Nat) : Nat :=
  arr.foldl (· + ·) 0 + lcmMaxNum arr + 2

/-- Shallow embedding of DaMultiUserScheduler.LCM.  none models the case where
the C++ while loop never terminates; otherwise the result is the uint32 value
the C++ function returns (the final loop multiplies res by every reduced
element, reducing mod 2^32 at every step). -/
def daLCM (arr : List Nat) : Option Nat :=
  match lcmLoop (lcmFuel arr) arr 1 2 (lcmMaxNum arr) with
  | some (arr2, res) => some (arr2.foldl (fun r a => r * a % u32Mod) res)
  | none => none

/-! ## Schedule generation

DaMultiUserScheduler.GeneratePacketScheduleForSetRounds (da-multi-user-scheduler.cc,
lines 268-297; DrrMultiUserScheduler has the identical loop): for each station
i = 0 .. n-1 it reads (timePeriod, deadline, penalty) from m_staPacketInfo, computes
packetsPerUser = roundsPerSchedule / timePeriod and pushes packetsPerUser entries
(arrivalRound = currRound + k * timePeriod, deadlineRound = arrivalRound + deadline,
penalty, i) onto the cleared m_packetSchedule, with k the running timePeriodFactor. -/

/-- Shallow embedding of GeneratePacketScheduleForSetRounds.  The per-station
packet info is a list of (timePeriod, deadline, penalty) triples indexed by
station id; rps is the memoized GetRoundsPerSchedule() value and r0 the
memoized GetCurrRound() value.  The nested foldl mirrors the nested for loops
(the inner counter j is the timePeriodFactor, incremented once per push). -/
def generatePacketSchedule (info : List (Nat × Nat × Nat)) (n rps r0 : Nat) :
    List SchedEntry :=
  (List.range n).foldl
    (fun sched i =>
      let t := info.getD i (0, 0, 0)
      let timePeriod := t.1
      let deadline := t.2.1
      let penalty := t.2.2
      let packetsPerUser := rps / timePeriod
      (List.range packetsPerUser).foldl
        (fun sched2 j =>
          let arrivalRound := r0 + j * timePeriod
          let deadlineRound := arrivalRound + deadline
          sched2 ++ [⟨arrivalRound, deadlineRound, penalty, i⟩])
        sched)
    []

/-- Closed form of the per-station inner loop of the schedule generator. -/
def stationBlock (info : List (Nat × Nat × Nat)) (rps r0 i : Nat) : List SchedEntry :=
  let t := info.getD i (0, 0, 0)
  (List.range (rps / t.1)).map
    (fun k => ⟨r0 + k * t.1, r0 + k * t.1 + t.2.1, t.2.2, i⟩)

/-! ## Deadline round robin drop scan

DrrMultiUserScheduler.ComputeDlMuInfo (drr-multi-user-scheduler.cc, lines
1038-1081): each pending (overflow) candidate with MAC aid is checked against the
PacketSchedule; the scan decrements the aid once (schedule station ids are
0-based) and walks m_packetSchedule in order, dequeuing the candidate packet and
logging a dropped decision at the first entry x with x[3] == aid && x[1] ==
currRound (then breaks); if no entry matches, the packet stays queued and a
buffered decision is logged. -/

/-- Scan of m_packetSchedule done for one pending candidate (the loop body sets
dropFlag and breaks at the first hit). Returns the final dropFlag. -/
def drrDropScan (sched : List SchedEntry) (aid curr : Nat) : Bool :=
  match sched with
  | [] => false
  | x :: rest =>
      if x.sta = aid ∧ x.deadline = curr then true else drrDropScan rest aid curr

/-- Decision taken by DrrMultiUserScheduler.ComputeDlMuInfo for one pending
candidate with raw MAC aid (the code first executes aid-- and then scans):
true = the packet is dequeued and a dropped decision logged, false = the packet
stays queued and a buffered decision is logged. -/
def drrPendingDecision (sched : List SchedEntry) (aidRaw curr : Nat) : Bool :=
  drrDropScan sched (aidRaw - 1) curr

/-! ## Memoized horizon computations

DaMultiUserScheduler stores m_roundsPerSchedule and m_packetsPerSchedule, both
initialized to 0 in the constructor (line 100); GetRoundsPerSchedule (lines
229-247) recomputes and caches only while the stored value is 0, and
GetPacketsPerSchedule (lines 249-266) does the same with the packet count,
calling GetRoundsPerSchedule once per station inside its accumulation loop.
SetStaPacketInfo (lines 173-176) overwrites m_staPacketInfo unconditionally.
DrrMultiUserScheduler carries identical copies of all three functions. -/

/-- Memoization-relevant state of the scheduler object. -/
structure DaConfigState where
  roundsPerSchedule : Nat
  packetsPerSchedule : Nat
  staPacketInfo : List (Nat × Nat × Nat)
deriving DecidableEq

/-- SetStaPacketInfo: replaces the per-station packet info. -/
def setStaPacketInfo (info : List (Nat × Nat × Nat)) (s : DaConfigState) : DaConfigState :=
  { s with staPacketInfo := info }

/-- GetRoundsPerSchedule: returns the memoized value unless it is still 0, in
which case it fills an array with the stations' time periods, stores LCM of it
and returns that.  none models a diverging LCM call. -/
def getRoundsPerSchedule (s : DaConfigState) : Option (Nat × DaConfigState) :=
  if s.roundsPerSchedule = 0 then
    match daLCM (s.staPacketInfo.map (fun t => t.1)) with
    | some v => some (v, { s with roundsPerSchedule := v })
    | none => none
  else
    some (s.roundsPerSchedule, s)

/-- GetPacketsPerSchedule: if the cache is 0, accumulates
GetRoundsPerSchedule() / timePeriod over the stations (calling the memoized
getter once per station, which caches on the first call), stores and returns
the total; otherwise returns the cache. -/
def getPacketsPerSchedule (s : DaConfigState) : Option (Nat × DaConfigState) :=
  if s.packetsPerSchedule = 0 then
    match (s.staPacketInfo.foldl
      (fun acc t =>
        match acc with
        | none => none
        | some (packets, st) =>
            match getRoundsPerSchedule st with
            | some (rps, st2) => some (packets + rps / t.1, st2)
            | none => none)
      (some (0, s))) with
    | some (packets, st) => some (packets, { st with packetsPerSchedule := packets })
    | none => none
  else
    some (s.packetsPerSchedule, s)

/-! ## RU sizing

GetRuTypePerRound (da-multi-user-scheduler.cc, lines 299-337) switches on the
channel width with cases 20 and 40 fully covered by if/else chains that always
return; any other width reaches NS_FATAL_ERROR (modeled none).  GetRusPerRound
(lines 339-375) has the same switch but its case 20 block has no break, so an
RU type not matched at width 20 falls through into the case 40 chain, and an RU
type matched by neither chain reaches the default NS_FATAL_ERROR. -/

/-- Width-20 if/else chain of GetRusPerRound. -/
def rusChain20 (rt : RuType) : Option Nat :=
  if rt = RuType.ru242 then some 1
  else if rt = RuType.ru106 then some 2
  else if rt = RuType.ru52 then some 4
  else if rt = RuType.ru26 then some 9
  else none

/-- Width-40 if/else chain of GetRusPerRound. -/
def rusChain40 (rt : RuType) : Option Nat :=
  if rt = RuType.ru484 then some 1
  else if rt = RuType.ru242 then some 2
  else if rt = RuType.ru106 then some 4
  else if rt = RuType.ru52 then some 8
  else if rt = RuType.ru26 then some 18
  else none

/-- GetRuTypePerRound as a function of the channel width and the memoized
packetsPerSchedule value it reads through GetPacketsPerSchedule(). -/
def getRuTypePerRound (width pps : Nat) : Option RuType :=
  if width = 20 then
    some (if pps = 1 then RuType.ru242
          else if pps = 2 then RuType.ru106
          else if 3 ≤ pps ∧ pps ≤ 4 then RuType.ru52
          else RuType.ru26)
  else if width = 40 then
    some (if pps = 1 then RuType.ru484
          else if pps = 2 then RuType.ru242
          else if 3 ≤ pps ∧ pps ≤ 4 then RuType.ru106
          else if 5 ≤ pps ∧ pps ≤ 8 then RuType.ru52
          else RuType.ru26)
  else none

/-- GetRusPerRound with the fallthrough of the missing break after case 20. -/
def getRusPerRound (width : Nat) (rt : RuType) : Option Nat :=
  if width = 20 then
    match rusChain20 rt with
    | some v => some v
    | none =>
        match rusChain40 rt with
        | some v => some v
        | none => none
  else if width = 40 then
    match rusChain40 rt with
    | some v => some v
    | none => none
  else none

/-! ## Cursor map resynchronization

GenerateMpduToCurrPacketMap (da-multi-user-scheduler.cc, lines 603-637) maps
station p to the running nextIndex, which advances by
roundsPerSchedule / timePeriod(p) after each station, so station p's cursor is
the index of the first entry of its block in the freshly generated
m_packetSchedule. -/

/-- Shallow embedding of GenerateMpduToCurrPacketMap: the cursor list indexed
by station id, rebuilt from scratch (the map is cleared first). -/
def generateMpduToCurrPacketMap (info : List (Nat × Nat × Nat)) (n rps : Nat) :
    List Nat :=
  ((List.range n).foldl
    (fun acc p =>
      (acc.1 ++ [acc.2], acc.2 + rps / (info.getD p (0, 0, 0)).1))
    (([] : List Nat), 0)).1

/-- Closed form of a station's cursor after resynchronization: the sum of the
preceding stations' per-horizon packet counts. -/
def cursorBase (info : List (Nat × Nat × Nat)) (rps i : Nat) : Nat :=
  ((List.range i).map (fun p => rps / (info.getD p (0, 0, 0)).1)).sum

/-! ## Maximum weighted matching backend

DaMultiUserScheduler.MaximumWeightedMatching (da-multi-user-scheduler.cc, lines
420-478) builds an undirected boost graph on n_vertices = rus * rounds + packets
vertices: packet vertices are 0 .. packets-1 and slot vertices follow.  For
packet i and round j in [GetCurrRound(), GetCurrRound()+rounds) with
m_packetSchedule[i][0] <= j <= m_packetSchedule[i][1] it adds one edge from i to
every slot vertex k in [packets + (j-r0)*rus, packets + (j-r0)*rus + rus).  The
boost maximum_weighted_matching call is external to the repository; the
readback loop is modeled against an arbitrary mate function constrained (in the
theorems) by the defining properties of a matching of this graph: matched pairs
are edges, and mate is an involution on matched vertices. -/

/-- Defaulted access to a packet schedule entry. -/
def schedGetD (sched : List SchedEntry) (i : Nat) : SchedEntry :=
  sched.getD i ⟨0, 0, 0, 0⟩

/-- GetRoundFromVertexIndex (lines 413-418): slot vertex to absolute round. -/
def getRoundFromVertexIndex (packets vj rus r0 : Nat) : Nat :=
  (vj - packets) / rus + r0

/-- Edge list of the bipartite graph built by MaximumWeightedMatching. -/
def mwmEdges (sched : List SchedEntry) (r0 rounds rus : Nat) : List (Nat × Nat) :=
  (List.range sched.length).flatMap (fun i =>
    (List.range rounds).flatMap (fun d =>
      if (schedGetD sched i).arrival ≤ r0 + d ∧ r0 + d ≤ (schedGetD sched i).deadline then
        (List.range rus).map (fun t => (i, sched.length + d * rus + t))
      else []))

/-- Readback decision of the matching loop for one vertex v: the loop body
inserts (v, GetRoundFromVertexIndex(mate(v), rus)) exactly when mate(v) is not
the null vertex and v < mate(v). -/
def mwmReadback (packets rus r0 : Nat) (mate : Nat → Option Nat) (v : Nat) :
    Option (Nat × Nat) :=
  match mate v with
  | some w =>
      if v < w then some (v, getRoundFromVertexIndex packets w rus r0)
      else none
  | none => none

/-- Pairs inserted into m_packetToRoundMap by the readback loop (lines
467-475), iterating over all n_vertices = rus * rounds + packets vertices. -/
def mwmPairs (sched : List SchedEntry) (rounds rus r0 : Nat)
    (mate : Nat → Option Nat) : List (Nat × Nat) :=
  (List.range (rus * rounds + sched.length)).filterMap
    (mwmReadback sched.length rus r0 mate)

/-! ## Min-cost-flow backend (standalone tool)

SimpleMinCostFlowProgram (maximum_weighted_matching.cpp, lines 18-103) builds
arcs in this order: window arcs from packet node i+1 to slot node
(packets+1) + j*rus + t with capacity 1 and unit cost -penalty(i), for every
round j in [0, rounds) inside packet i's window and every t < rus; then source
arcs 0 -> i+1 (capacity 1, cost 0); then sink arcs from every slot node to node
packets + rus*rounds + 1 (capacity 1, cost 0).  The solver is external: any
feasible flow respects arc capacities and conserves flow at the internal
nodes, which is all the theorems assume.  The readback loop (lines 76-97)
emits, for every arc whose flow times unit cost is negative, the pair
(tail - 1, (head - packets - 1) / rus). -/

/-- One arc of the min cost flow network. -/
structure McfArc where
  tail : Nat
  head : Nat
  cap : Nat
  cost : Int
deriving DecidableEq

/-- Window arcs (lines 25-39). -/
def mcfWindowArcs (sched : List (Nat × Nat × Nat)) (rounds rus : Nat) : List McfArc :=
  (List.range sched.length).flatMap (fun i =>
    (List.range rounds).flatMap (fun j =>
      if (sched.getD i (0, 0, 0)).1 ≤ j ∧ j ≤ (sched.getD i (0, 0, 0)).2.1 then
        (List.range rus).map (fun t =>
          ⟨i + 1, (sched.length + 1) + j * rus + t, 1,
           -(((sched.getD i (0, 0, 0)).2.2 : Nat) : Int)⟩)
      else []))

/-- Source arcs (lines 42-43). -/
def mcfSourceArcs (packets : Nat) : List McfArc :=
  (List.range packets).map (fun i => ⟨0, i + 1, 1, 0⟩)

/-- Sink arcs (lines 46-47). -/
def mcfSinkArcs (packets slots : Nat) : List McfArc :=
  (List.range slots).map (fun s => ⟨packets + 1 + s, packets + slots + 1, 1, 0⟩)

/-- Full arc list in insertion order. -/
def mcfArcs (sched : List (Nat × Nat × Nat)) (rounds rus : Nat) : List McfArc :=
  mcfWindowArcs sched rounds rus ++ mcfSourceArcs sched.length ++
    mcfSinkArcs sched.length (rus * rounds)

/-- Default arc used for out-of-range indexing. -/
def mcfDefaultArc : McfArc := ⟨0, 0, 0, 0⟩

/-- Readback decision for one arc index a: the loop computes cost =
Flow(a) * UnitCost(a) and pushes (Tail(a) - 1, (Head(a) - packets - 1) / rus)
exactly when that cost is negative. -/
def mcfReadback (arcs : List McfArc) (flow : Nat → Nat) (packets rus : Nat)
    (a : Nat) : Option (Nat × Nat) :=
  let arc := arcs.getD a mcfDefaultArc
  if (flow a : Int) * arc.cost < 0 then
    some (arc.tail - 1, (arc.head - packets - 1) / rus)
  else none

/-- Pairs pushed into packetToRoundMap by the readback loop, given the flow
assignment (indexed by arc position). -/
def mcfServedPairs (arcs : List McfArc) (flow : Nat → Nat) (packets rus : Nat) :
    List (Nat × Nat) :=
  (List.range arcs.length).filterMap (mcfReadback arcs flow packets rus)

/-- Total flow entering a node. -/
def mcfInflow (arcs : List McfArc) (flow : Nat → Nat) (node : Nat) : Nat :=
  ∑ a ∈ Finset.range arcs.length,
    if (arcs.getD a mcfDefaultArc).head = node then flow a else 0

/-- Total flow leaving a node. -/
def mcfOutflow (arcs : List McfArc) (flow : Nat → Nat) (node : Nat) : Nat :=
  ∑ a ∈ Finset.range arcs.length,
    if (arcs.getD a mcfDefaultArc).tail = node then flow a else 0

/-! ## Round engine state machine

A first-order model of the DaMultiUserScheduler state touched by the
PacketToRoundMap lifecycle: TrySendingDlMuPpdu (lines 1173-1211) fixes the
round offset when the first candidate shows up after deadline traffic starts
and regenerates schedule, packet-to-round map and cursor map when
m_packetToRoundMap is empty at a horizon boundary with candidates present;
ComputeDlMuInfo (lines 1226-1322) consumes the map candidate by candidate;
StartNextRound (lines 639-680) increments m_currRound once per round timer
firing.  Environment data (whether candidates are queued, which aids they have,
and what the external solver returned) is carried on the events. -/

/-- std.map lookup (find). -/
def mapLookup (m : List (Nat × Nat)) (k : Nat) : Option Nat :=
  match m with
  | [] => none
  | (k2, v) :: rest => if k2 = k then some v else mapLookup rest k

/-- std.map erase by key. -/
def mapErase (m : List (Nat × Nat)) (k : Nat) : List (Nat × Nat) :=
  m.filter (fun e => e.1 != k)

/-- std.map insert: keeps the existing entry if the key is present. -/
def mapInsert (m : List (Nat × Nat)) (k v : Nat) : List (Nat × Nat) :=
  if (mapLookup m k).isSome then m else m ++ [(k, v)]

/-- ILPSolver readback loop (lines 519-535): every parsed pair is inserted. -/
def ilpInsertAll (m : List (Nat × Nat)) (out : List (Nat × Nat)) :
    List (Nat × Nat) :=
  out.foldl (fun acc pr => mapInsert acc pr.1 pr.2) m

/-- Engine state; roundsPerSchedule and staPacketInfo are fixed configuration
(memoized before the engine runs), regenCount and assertFailed are
instrumentation of observable actions (number of schedule regenerations, and
whether the NS_ASSERT of ComputeDlMuInfo line 1268 has fired). -/
structure DaEngineState where
  currRound : Nat
  roundsPerSchedule : Nat
  nStations : Nat
  staPacketInfo : List (Nat × Nat × Nat)
  packetSchedule : List SchedEntry
  packetToRoundMap : List (Nat × Nat)
  mpduToCurrPacket : List Nat
  started : Bool
  offsetSet : Bool
  regenCount : Nat
  assertFailed : Bool
deriving DecidableEq

/-- Events driving the engine model.  tryPpdu carries whether m_candidates is
nonempty and the pairs the external ILP solve would return (already offset);
computeDl carries the MAC aids (1-based) of m_candidates in list order. -/
inductive DaEvent where
  | notifyStarted
  | tryPpdu (candidatesNonempty : Bool) (solverOut : List (Nat × Nat))
  | computeDl (candidates : List Nat)
  | nextRound
deriving DecidableEq

/-- Tail of TrySendingDlMuPpdu (lines 1176-1197): set the round offset at the
first candidate after deadline traffic started, then regenerate schedule, map
and cursors if the map is empty at a horizon boundary with candidates. -/
def daTryPpdu (s : DaEngineState) (cands : Bool) (solverOut : List (Nat × Nat)) :
    DaEngineState :=
  let s1 := if s.started && cands && !s.offsetSet then { s with offsetSet := true } else s
  if s1.started && s1.packetToRoundMap.isEmpty &&
      (s1.currRound % s1.roundsPerSchedule == 0) && cands then
    { s1 with
      packetSchedule :=
        generatePacketSchedule s1.staPacketInfo s1.nStations s1.roundsPerSchedule
          s1.currRound,
      packetToRoundMap := ilpInsertAll s1.packetToRoundMap solverOut,
      mpduToCurrPacket :=
        generateMpduToCurrPacketMap s1.staPacketInfo s1.nStations s1.roundsPerSchedule,
      regenCount := s1.regenCount + 1 }
  else s1

/-- Body of the candidate loop of ComputeDlMuInfo (lines 1238-1313) for one
candidate: decrement the aid, read the cursor, assert the pointed-to schedule
entry belongs to this station (NS_ASSERT line 1268), then either consume the
map entry scheduled for this round (erase and advance), leave a buffered
packet alone, or drop an unscheduled packet (dequeue and advance). -/
def daProcessCandidate (s : DaEngineState) (aidRaw : Nat) : DaEngineState :=
  let aid := aidRaw - 1
  let p := s.mpduToCurrPacket.getD aid 0
  if (schedGetD s.packetSchedule p).sta ≠ aid then
    { s with assertFailed := true }
  else
    match mapLookup s.packetToRoundMap p with
    | some r =>
        if r = s.currRound then
          { s with
            packetToRoundMap := mapErase s.packetToRoundMap p,
            mpduToCurrPacket := s.mpduToCurrPacket.set aid (p + 1) }
        else s
    | none =>
        { s with mpduToCurrPacket := s.mpduToCurrPacket.set aid (p + 1) }

/-- Candidate-processing phase of ComputeDlMuInfo, guarded exactly as in the
source (line 1226); an NS_ASSERT failure aborts the program, so processing
stops once assertFailed is set. -/
def daComputeDl (s : DaEngineState) (candidates : List Nat) : DaEngineState :=
  if s.started && s.offsetSet then
    candidates.foldl
      (fun st aid => if st.assertFailed then st else daProcessCandidate st aid) s
  else s

/-- One engine step. -/
def daStep (s : DaEngineState) (e : DaEvent) : DaEngineState :=
  match e with
  | DaEvent.notifyStarted => { s with started := true }
  | DaEvent.tryPpdu c out => daTryPpdu s c out
  | DaEvent.computeDl cands => daComputeDl s cands
  | DaEvent.nextRound => { s with currRound := s.currRound + 1 }

/-- Run a trace of events. -/
def daRun (s : DaEngineState) (es : List DaEvent) : DaEngineState :=
  es.foldl daStep s

/-- Engine start state: round 0, everything empty, traffic not started;
rps and the station info are the memoized configuration. -/
def daInit (info : List (Nat × Nat × Nat)) (n rps : Nat) : DaEngineState :=
  ⟨0, rps, n, info, [], [], [], false, false, 0, false⟩

/-! ## Standalone tool command line and output

main of maximum_weighted_matching.cpp (lines 105-152): argv positions 1-4 are
rounds, packets, ruType, totalTones; the packet schedule triples are read from
consecutive positions starting at base = 5; the supply flow is not a command
line argument, it is the loop variable of the final loop that calls
SimpleMinCostFlowProgram once for every supplyFlow in 1..packets; at the end
one packetIndex,roundIndex line per entry of the best solve's packetToRoundMap
is written to mcf.output. -/

/-- Header arguments (rounds, packets, ruType, totalTones) parsed by atoi from
argv 1-4 (argv is modeled as the list of atoi values, position 0 being the
program name and unused). -/
def mcfParseHeader (argv : List Nat) : Nat × Nat × Nat × Nat :=
  (argv.getD 1 0, argv.getD 2 0, argv.getD 3 0, argv.getD 4 0)

/-- Schedule parse loop (lines 116-125): base = 5 and b = 5, 8, 11, ... -/
def mcfParseSchedule (argv : List Nat) (packets : Nat) : List (Nat × Nat × Nat) :=
  (List.range packets).foldl
    (fun acc t =>
      let b := 5 + 3 * t
      acc ++ [(argv.getD b 0, argv.getD (b + 1) 0, argv.getD (b + 2) 0)])
    []

/-- Parse layout asserted by the claim for the legacy CLI: rounds packets
ruType totalTones supplyFlow followed by the triples, i.e. supplyFlow at argv 5
and the first triple starting at argv 6.  This definition follows the claim
text, not the source; it exists only to be compared against mcfParseSchedule. -/
def mcfClaimParseSchedule (argv : List Nat) (packets : Nat) : List (Nat × Nat × Nat) :=
  (List.range packets).foldl
    (fun acc t =>
      let b := 6 + 3 * t
      acc ++ [(argv.getD b 0, argv.getD (b + 1) 0, argv.getD (b + 2) 0)])
    []

/-- Supply-flow loop of main (lines 129-130) together with the global best
tracking of SimpleMinCostFlowProgram (lines 64-101): outcome i = none models a
non-OPTIMAL solve for supplyFlow i (globals untouched), outcome i =
some (c, m) an OPTIMAL solve with optimal cost c and readback pairs m; the
globals (globalMinCost, packetToRoundMap) start at (0, empty) and are replaced
whenever c < globalMinCost. -/
def mcfMainLoop (packets : Nat) (outcome : Nat → Option (Int × List (Nat × Nat))) :
    Int × List (Nat × Nat) :=
  (List.range packets).foldl
    (fun acc k =>
      match outcome (k + 1) with
      | some cm => if cm.1 < acc.1 then cm else acc
      | none => acc)
    (0, [])

/-- Output-file write loop (lines 146-147): one packetIndex,roundIndex line per
entry of the final packetToRoundMap, in order. -/
def mcfOutputLines (ptrMap : List (Nat × Nat)) : List (Nat × Nat) :=
  ptrMap.foldl (fun acc pr => acc ++ [(pr.1, pr.2)]) []

/-! ## Theorems -/

example : daLCM [4, 6] = some 12 := by decide

example : daLCM [1, 2, 4] = some 4 := by decide

example : daLCM [6, 10, 15] = some 30 := by decide

example : daLCM [0, 4] = some 0 := by decide

example : daLCM [7] = some 7 := by decide

/-! ### Facts about listLcm -/

theorem listLcm_pos (l : List Nat) (h : ∀ a ∈ l, 0 < a) : 0 < listLcm l := by
  induction l with
  | nil => exact Nat.one_pos
  | cons a t ih =>
      have ha : 0 < a := h a (List.mem_cons_self a t)
      have ht : 0 < listLcm t := ih (fun b hb => h b (List.mem_cons_of_mem _ hb))
      have : Nat.lcm a (listLcm t) ≠ 0 :=
        Nat.lcm_ne_zero (Nat.pos_iff_ne_zero.mp ha) (Nat.pos_iff_ne_zero.mp ht)
      exact Nat.pos_of_ne_zero this

theorem dvd_listLcm (l : List Nat) (a : Nat) (h : a ∈ l) : a ∣ listLcm l := by
  induction l with
  | nil => cases h
  | cons b t ih =>
      rcases List.mem_cons.mp h with rfl | hmem
      · exact Nat.dvd_lcm_left _ _
      · exact dvd_trans (ih hmem) (Nat.dvd_lcm_right _ _)

theorem listLcm_dvd (l : List Nat) (m : Nat) (h : ∀ a ∈ l, a ∣ m) : listLcm l ∣ m := by
  induction l with
  | nil => exact Nat.one_dvd m
  | cons b t ih =>
      exact Nat.lcm_dvd (h b (List.mem_cons_self b t))
        (ih (fun a ha => h a (List.mem_cons_of_mem _ ha)))

theorem prime_dvd_listLcm (l : List Nat) (p : Nat) (hp : p.Prime)
    (h : p ∣ listLcm l) : ∃ a ∈ l, p ∣ a := by
  induction l with
  | nil =>
      exact absurd (Nat.le_of_dvd Nat.one_pos h) (Nat.not_le_of_lt hp.one_lt)
  | cons b t ih =>
      have hmul : p ∣ b * listLcm t :=
        dvd_trans h (Nat.lcm_dvd_mul b (listLcm t))
      rcases (Nat.Prime.dvd_mul hp).mp hmul with hb | ht
      · exact ⟨b, List.mem_cons_self b t, hb⟩
      · obtain ⟨a, ha, hpa⟩ := ih ht
        exact ⟨a, List.mem_cons_of_mem _ ha, hpa⟩

/-! ### Filter and sum helper lemmas -/

theorem length_filter_mono_of_imp {α : Type} (l : List α) (f g : α → Bool)
    (h : ∀ a ∈ l, f a = true → g a = true) :
    (l.filter f).length ≤ (l.filter g).length := by
  induction l with
  | nil => exact Nat.le_refl 0
  | cons a t ih =>
      have iht : (t.filter f).length ≤ (t.filter g).length :=
        ih (fun b hb => h b (List.mem_cons_of_mem _ hb))
      by_cases hf : f a = true
      · have hg := h a (List.mem_cons_self a t) hf
        simp [List.filter_cons, hf, hg]
        omega
      · simp only [List.filter_cons]
        rw [if_neg hf]
        by_cases hg : g a = true
        · rw [if_pos hg]
          simp only [List.length_cons]
          omega
        · rw [if_neg hg]
          exact iht

theorem length_filter_map_le {α : Type} (l : List α) (f : α → α) (q : α → Bool)
    (h : ∀ a ∈ l, q (f a) = true → q a = true) :
    ((l.map f).filter q).length ≤ (l.filter q).length := by
  induction l with
  | nil => exact Nat.le_refl 0
  | cons a t ih =>
      have iht := ih (fun b hb => h b (List.mem_cons_of_mem _ hb))
      simp only [List.map_cons, List.filter_cons]
      by_cases hf : q (f a) = true
      · have hg := h a (List.mem_cons_self a t) hf
        rw [if_pos hf, if_pos hg]
        simp only [List.length_cons]
        omega
      · rw [if_neg hf]
        by_cases hg : q a = true
        · rw [if_pos hg]
          simp only [List.length_cons]
          omega
        · rw [if_neg hg]
          exact iht

theorem map_sum_le (l : List Nat) (f : Nat → Nat) (hle : ∀ a ∈ l, f a ≤ a) :
    (l.map f).sum ≤ l.sum := by
  induction l with
  | nil => exact Nat.le_refl 0
  | cons c u ihu =>
      simp only [List.map_cons, List.sum_cons]
      exact Nat.add_le_add (hle c (List.mem_cons_self c u))
        (ihu (fun d hd => hle d (List.mem_cons_of_mem _ hd)))

theorem map_sum_lt_of_exists (l : List Nat) (f : Nat → Nat)
    (hle : ∀ a ∈ l, f a ≤ a) (hex : ∃ a ∈ l, f a < a) :
    (l.map f).sum < l.sum := by
  induction l with
  | nil => obtain ⟨a, ha, _⟩ := hex; cases ha
  | cons b t ih =>
      simp only [List.map_cons, List.sum_cons]
      obtain ⟨a, ha, hafa⟩ := hex
      rcases List.mem_cons.mp ha with rfl | hmem
      · have : (t.map f).sum ≤ t.sum :=
          map_sum_le t f (fun d hd => hle d (List.mem_cons_of_mem _ hd))
        omega
      · have hble : f b ≤ b := hle b (List.mem_cons_self b t)
        have : (t.map f).sum < t.sum :=
          ih (fun d hd => hle d (List.mem_cons_of_mem _ hd)) ⟨a, hmem, hafa⟩
        omega

theorem mod_beq_iff_dvd (a x : Nat) : (a % x == 0) = true ↔ x ∣ a := by
  rw [beq_iff_eq]
  exact Nat.dvd_iff_mod_eq_zero.symm

theorem div_dvd_div_of_dvd (a b x : Nat) (hx : 0 < x) (h : x ∣ a) (h2 : a ∣ b) :
    a / x ∣ b / x := by
  obtain ⟨k, rfl⟩ := h
  obtain ⟨m, rfl⟩ := h2
  rw [Nat.mul_div_cancel_left _ hx, Nat.mul_assoc, Nat.mul_div_cancel_left _ hx]
  exact Dvd.intro m rfl

/-! ### The division pass multiplies the lcm down by exactly x (for prime x) -/

theorem mem_lcmDivStep (x : Nat) (arr : List Nat) (b : Nat)
    (hb : b ∈ lcmDivStep x arr) :
    ∃ a ∈ arr, (x ∣ a ∧ b = a / x) ∨ (¬ x ∣ a ∧ b = a) := by
  obtain ⟨a, ha, hab⟩ := List.mem_map.mp hb
  by_cases hdvd : x ∣ a
  · refine ⟨a, ha, Or.inl ⟨hdvd, ?_⟩⟩
    have : (a % x == 0) = true := (mod_beq_iff_dvd a x).mpr hdvd
    rw [← hab, if_pos this]
  · refine ⟨a, ha, Or.inr ⟨hdvd, ?_⟩⟩
    have : ¬ (a % x == 0) = true := fun hc => hdvd ((mod_beq_iff_dvd a x).mp hc)
    rw [← hab, if_neg this]

theorem lcmDivStep_image (x : Nat) (arr : List Nat) (a : Nat) (ha : a ∈ arr) :
    (x ∣ a → a / x ∈ lcmDivStep x arr) ∧ (¬ x ∣ a → a ∈ lcmDivStep x arr) := by
  constructor
  · intro hdvd
    have hb : (a % x == 0) = true := (mod_beq_iff_dvd a x).mpr hdvd
    exact List.mem_map.mpr ⟨a, ha, by rw [if_pos hb]⟩
  · intro hdvd
    have hb : ¬ (a % x == 0) = true := fun hc => hdvd ((mod_beq_iff_dvd a x).mp hc)
    exact List.mem_map.mpr ⟨a, ha, by rw [if_neg hb]⟩

theorem listLcm_lcmDivStep (x : Nat) (arr : List Nat) (hx : x.Prime)
    (hex : ∃ a ∈ arr, x ∣ a) :
    x * listLcm (lcmDivStep x arr) = listLcm arr := by
  have hxpos : 0 < x := hx.pos
  have hxL : x ∣ listLcm arr := by
    obtain ⟨a, ha, hdvd⟩ := hex
    exact dvd_trans hdvd (dvd_listLcm arr a ha)
  apply Nat.dvd_antisymm
  · -- x * lcm(arr after the pass) divides lcm(arr)
    have h1 : listLcm (lcmDivStep x arr) ∣ listLcm arr / x := by
      apply listLcm_dvd
      intro b hb
      obtain ⟨a, ha, hcase⟩ := mem_lcmDivStep x arr b hb
      have haL : a ∣ listLcm arr := dvd_listLcm arr a ha
      rcases hcase with ⟨hdvd, heq⟩ | ⟨hndvd, heq⟩
      · rw [heq]
        exact div_dvd_div_of_dvd a (listLcm arr) x hxpos hdvd haL
      · rw [heq]
        have hco : Nat.Coprime a x :=
          Nat.Coprime.symm ((Nat.Prime.coprime_iff_not_dvd hx).mpr hndvd)
        have h2 : a ∣ (listLcm arr / x) * x := by
          rwa [Nat.div_mul_cancel hxL]
        exact Nat.Coprime.dvd_of_dvd_mul_right hco h2
    calc x * listLcm (lcmDivStep x arr) ∣ x * (listLcm arr / x) :=
          Nat.mul_dvd_mul_left x h1
      _ = listLcm arr := Nat.mul_div_cancel' hxL
  · -- lcm(arr) divides x * lcm(arr after the pass)
    apply listLcm_dvd
    intro a ha
    have himg := lcmDivStep_image x arr a ha
    by_cases hdvd : x ∣ a
    · have hmem := himg.1 hdvd
      have : a / x ∣ listLcm (lcmDivStep x arr) := dvd_listLcm _ _ hmem
      calc a = x * (a / x) := (Nat.mul_div_cancel' hdvd).symm
        _ ∣ x * listLcm (lcmDivStep x arr) := Nat.mul_dvd_mul_left x this
    · have hmem := himg.2 hdvd
      exact dvd_trans (dvd_listLcm _ _ hmem) (Dvd.intro_left x rfl)

/-! ### When at least two elements are divisible by x, x must be prime -/

theorem trigger_prime (x : Nat) (arr : List Nat) (hx2 : 2 ≤ x)
    (hinv : ∀ p, p.Prime → p < x → lcmDivCount p arr ≤ 1)
    (htrig : 2 ≤ lcmDivCount x arr) : x.Prime := by
  by_contra hnp
  have hmf : x.minFac.Prime := Nat.minFac_prime (by omega)
  have hmfd : x.minFac ∣ x := Nat.minFac_dvd x
  have hmflt : x.minFac < x := by
    have hne : x.minFac ≠ x := fun he => hnp (he ▸ hmf)
    exact lt_of_le_of_ne (Nat.le_of_dvd (by omega) hmfd) hne
  have hmono : lcmDivCount x arr ≤ lcmDivCount x.minFac arr := by
    apply length_filter_mono_of_imp
    intro a _ hfa
    exact (mod_beq_iff_dvd a x.minFac).mpr
      (dvd_trans hmfd ((mod_beq_iff_dvd a x).mp hfa))
  have := hinv x.minFac hmf hmflt
  omega

/-! ### Preservation lemmas for the loop invariants -/

theorem lcmDivCount_lcmDivStep_le (p x : Nat) (arr : List Nat) :
    lcmDivCount p (lcmDivStep x arr) ≤ lcmDivCount p arr := by
  apply length_filter_map_le
  intro a _ hq
  by_cases hdvd : (a % x == 0) = true
  · rw [if_pos hdvd] at hq
    have hxa : x ∣ a := (mod_beq_iff_dvd a x).mp hdvd
    have hdd : a / x ∣ a := Nat.div_dvd_of_dvd hxa
    exact (mod_beq_iff_dvd a p).mpr
      (dvd_trans ((mod_beq_iff_dvd (a / x) p).mp hq) hdd)
  · rwa [if_neg hdvd] at hq

theorem lcmDivStep_pos (x : Nat) (arr : List Nat) (hx : 2 ≤ x)
    (hpos : ∀ a ∈ arr, 0 < a) : ∀ b ∈ lcmDivStep x arr, 0 < b := by
  intro b hb
  obtain ⟨a, ha, hcase⟩ := mem_lcmDivStep x arr b hb
  have hap : 0 < a := hpos a ha
  rcases hcase with ⟨hdvd, rfl⟩ | ⟨_, rfl⟩
  · have hxa : x ≤ a := Nat.le_of_dvd hap hdvd
    exact Nat.div_pos hxa (by omega)
  · exact hap

theorem lcmDivStep_le_max (x maxNum : Nat) (arr : List Nat)
    (hmax : ∀ a ∈ arr, a ≤ maxNum) : ∀ b ∈ lcmDivStep x arr, b ≤ maxNum := by
  intro b hb
  obtain ⟨a, ha, hcase⟩ := mem_lcmDivStep x arr b hb
  have := hmax a ha
  rcases hcase with ⟨_, rfl⟩ | ⟨_, rfl⟩
  · exact Nat.le_trans (Nat.div_le_self a x) this
  · exact this

theorem lcmDivStep_sum_lt (x : Nat) (arr : List Nat) (hx : 2 ≤ x)
    (hpos : ∀ a ∈ arr, 0 < a) (htrig : 2 ≤ lcmDivCount x arr) :
    (lcmDivStep x arr).sum < arr.sum := by
  have hfil : arr.filter (fun a => a % x == 0) ≠ [] := by
    intro hnil
    have : lcmDivCount x arr = 0 := by simp [lcmDivCount, hnil]
    omega
  obtain ⟨a, ha⟩ := List.exists_mem_of_ne_nil _ hfil
  have hamem : a ∈ arr := (List.mem_filter.mp ha).1
  have hadvd : x ∣ a := (mod_beq_iff_dvd a x).mp (List.mem_filter.mp ha).2
  apply map_sum_lt_of_exists
  · intro c _
    by_cases hc : (c % x == 0) = true
    · rw [if_pos hc]; exact Nat.div_le_self c x
    · rw [if_neg hc]
  · refine ⟨a, hamem, ?_⟩
    have hcb : (a % x == 0) = true := (mod_beq_iff_dvd a x).mpr hadvd
    rw [if_pos hcb]
    exact Nat.div_lt_self (hpos a hamem) (by omega)

/-! ### The while loop invariant -/

theorem le_lcmMaxNum (arr : List Nat) : ∀ a ∈ arr, a ≤ lcmMaxNum arr := by
  have hgen : ∀ (l : List Nat) (init : Nat),
      init ≤ l.foldl (fun m a => if m < a then a else m) init ∧
      ∀ a ∈ l, a ≤ l.foldl (fun m a => if m < a then a else m) init := by
    intro l
    induction l with
    | nil => intro init; exact ⟨Nat.le_refl _, fun a ha => absurd ha (List.not_mem_nil a)⟩
    | cons b t ih =>
        intro init
        simp only [List.foldl_cons]
        constructor
        · by_cases hb : init < b
          · rw [if_pos hb]
            exact Nat.le_trans (Nat.le_of_lt hb) (ih b).1
          · rw [if_neg hb]
            exact (ih init).1
        · intro a ha
          rcases List.mem_cons.mp ha with rfl | hmem
          · by_cases hb : init < a
            · rw [if_pos hb]; exact (ih a).1
            · rw [if_neg hb]
              exact Nat.le_trans (Nat.le_of_not_lt hb) (ih init).1
          · by_cases hb : init < b
            · rw [if_pos hb]; exact (ih b).2 a hmem
            · rw [if_neg hb]; exact (ih init).2 a hmem
  exact (hgen arr 0).2

theorem foldl_add_eq_sum (l : List Nat) : l.foldl (· + ·) 0 = l.sum := by
  have hgen : ∀ (t : List Nat) (init : Nat), t.foldl (· + ·) init = init + t.sum := by
    intro t
    induction t with
    | nil => intro init; simp
    | cons b u ih =>
        intro init
        simp only [List.foldl_cons, List.sum_cons, ih]
        omega
  simpa using hgen l 0

theorem lcmLoop_spec (fuel : Nat) :
    ∀ (arr : List Nat) (res x maxNum L : Nat),
      2 ≤ x →
      (∀ a ∈ arr, 0 < a) →
      (∀ a ∈ arr, a ≤ maxNum) →
      (∀ p, p.Prime → p < x → lcmDivCount p arr ≤ 1) →
      res * listLcm arr = L →
      0 < L →
      L < u32Mod →
      arr.sum + (maxNum + 1 - x) + 1 ≤ fuel →
      ∃ arr2 res2,
        lcmLoop fuel arr res x maxNum = some (arr2, res2) ∧
        res2 * listLcm arr2 = L ∧
        (∀ a ∈ arr2, 0 < a) ∧
        (∀ p, p.Prime → lcmDivCount p arr2 ≤ 1) := by
  induction fuel with
  | zero =>
      intro arr res x maxNum L _ _ _ _ _ _ _ hfuel
      omega
  | succ fuel ih =>
      intro arr res x maxNum L hx2 hpos hmax hinv hres hLpos hLlt hfuel
      by_cases hxle : x ≤ maxNum
      · by_cases htrig : 2 ≤ lcmDivCount x arr
        · -- division pass
          have hxprime : x.Prime := trigger_prime x arr hx2 hinv htrig
          have hex : ∃ a ∈ arr, x ∣ a := by
            have hfil : arr.filter (fun a => a % x == 0) ≠ [] := by
              intro hnil
              have : lcmDivCount x arr = 0 := by simp [lcmDivCount, hnil]
              omega
            obtain ⟨a, ha⟩ := List.exists_mem_of_ne_nil _ hfil
            exact ⟨a, (List.mem_filter.mp ha).1,
              (mod_beq_iff_dvd a x).mp (List.mem_filter.mp ha).2⟩
          have hlcmstep : x * listLcm (lcmDivStep x arr) = listLcm arr :=
            listLcm_lcmDivStep x arr hxprime hex
          have hresx : (res * x) * listLcm (lcmDivStep x arr) = L := by
            rw [Nat.mul_assoc, hlcmstep, hres]
          have hdvdL : res * x ∣ L := ⟨listLcm (lcmDivStep x arr), hresx.symm⟩
          have hmodid : res * x % u32Mod = res * x :=
            Nat.mod_eq_of_lt (Nat.lt_of_le_of_lt (Nat.le_of_dvd hLpos hdvdL) hLlt)
          have hsum : (lcmDivStep x arr).sum < arr.sum :=
            lcmDivStep_sum_lt x arr hx2 hpos htrig
          have hstep := ih (lcmDivStep x arr) (res * x) x maxNum L hx2
            (lcmDivStep_pos x arr hx2 hpos)
            (lcmDivStep_le_max x maxNum arr hmax)
            (fun p hp hplt => Nat.le_trans (lcmDivCount_lcmDivStep_le p x arr)
              (hinv p hp hplt))
            hresx hLpos hLlt (by omega)
          obtain ⟨arr2, res2, hloop, hrest⟩ := hstep
          refine ⟨arr2, res2, ?_, hrest⟩
          rw [lcmLoop, if_pos hxle, if_pos htrig, hmodid]
          exact hloop
        · -- advance x
          have hinv2 : ∀ p, p.Prime → p < x + 1 → lcmDivCount p arr ≤ 1 := by
            intro p hp hplt
            by_cases hpx : p < x
            · exact hinv p hp hpx
            · have : p = x := by omega
              subst this
              omega
          have hstep := ih arr res (x + 1) maxNum L (by omega) hpos hmax hinv2
            hres hLpos hLlt (by omega)
          obtain ⟨arr2, res2, hloop, hrest⟩ := hstep
          refine ⟨arr2, res2, ?_, hrest⟩
          rw [lcmLoop, if_pos hxle, if_neg htrig]
          exact hloop
      · -- exit
        refine ⟨arr, res, ?_, hres, hpos, ?_⟩
        · rw [lcmLoop, if_neg hxle]
        · intro p hp
          by_cases hplt : p < x
          · exact hinv p hp hplt
          · have hfil : arr.filter (fun a => a % p == 0) = [] := by
              rw [List.filter_eq_nil_iff]
              intro a ha hc
              have hdvd : p ∣ a := (mod_beq_iff_dvd a p).mp hc
              have h1 : p ≤ a := Nat.le_of_dvd (hpos a ha) hdvd
              have h2 : a ≤ maxNum := hmax a ha
              omega
            simp [lcmDivCount, hfil]

/-! ### Pairwise coprime residue means the lcm is the product -/

theorem listLcm_eq_prod_of_count (arr : List Nat) (hpos : ∀ a ∈ arr, 0 < a)
    (h : ∀ p, p.Prime → lcmDivCount p arr ≤ 1) : listLcm arr = arr.prod := by
  induction arr with
  | nil => rfl
  | cons a t ih =>
      have hapos : 0 < a := hpos a (List.mem_cons_self a t)
      have htpos : ∀ b ∈ t, 0 < b := fun b hb => hpos b (List.mem_cons_of_mem _ hb)
      have hcount : ∀ p, p.Prime → lcmDivCount p t ≤ 1 := by
        intro p hp
        have hmono : lcmDivCount p t ≤ lcmDivCount p (a :: t) := by
          unfold lcmDivCount
          simp only [List.filter_cons]
          by_cases hc : (a % p == 0) = true
          · rw [if_pos hc]; simp
          · rw [if_neg hc]
        exact Nat.le_trans hmono (h p hp)
      have hco : Nat.Coprime a (listLcm t) := by
        by_contra hnc
        have hgpos : 0 < Nat.gcd a (listLcm t) := Nat.gcd_pos_of_pos_left _ hapos
        have hgne : Nat.gcd a (listLcm t) ≠ 1 := hnc
        obtain ⟨p, hp, hpg⟩ := Nat.exists_prime_and_dvd hgne
        have hpa : p ∣ a := dvd_trans hpg (Nat.gcd_dvd_left _ _)
        have hpl : p ∣ listLcm t := dvd_trans hpg (Nat.gcd_dvd_right _ _)
        obtain ⟨b, hb, hpb⟩ := prime_dvd_listLcm t p hp hpl
        have hfa : (a % p == 0) = true := (mod_beq_iff_dvd a p).mpr hpa
        have hcnt : 2 ≤ lcmDivCount p (a :: t) := by
          unfold lcmDivCount
          simp only [List.filter_cons, if_pos hfa, List.length_cons]
          have hbmem : b ∈ t.filter (fun c => c % p == 0) :=
            List.mem_filter.mpr ⟨hb, (mod_beq_iff_dvd b p).mpr hpb⟩
          have : 0 < (t.filter (fun c => c % p == 0)).length :=
            List.length_pos.mpr (List.ne_nil_of_mem hbmem)
          omega
        have := h p hp
        omega
      show Nat.lcm a (listLcm t) = a * t.prod
      rw [Nat.Coprime.lcm_eq_mul hco, ih htpos hcount]

/-! ### The final multiplication loop -/

theorem foldl_mul_mod (l : List Nat) (acc : Nat)
    (h : acc * l.prod < u32Mod) (hpos : ∀ a ∈ l, 0 < a) :
    l.foldl (fun r a => r * a % u32Mod) acc = acc * l.prod := by
  induction l generalizing acc with
  | nil => simp
  | cons a t ih =>
      have htpos : 0 < t.prod := List.prod_pos (fun b hb => hpos b (List.mem_cons_of_mem _ hb))
      have hle : acc * a ≤ acc * a * t.prod := Nat.le_mul_of_pos_right _ htpos
      have haclt : acc * a < u32Mod := by
        have : acc * a * t.prod = acc * (a * t.prod) := by ring
        rw [List.prod_cons] at h
        rw [this] at hle
        omega
      simp only [List.foldl_cons]
      rw [Nat.mod_eq_of_lt haclt]
      rw [ih (acc * a) ?h1 (fun b hb => hpos b (List.mem_cons_of_mem _ hb))]
      · rw [List.prod_cons]; ring
      · rw [List.prod_cons] at h
        calc acc * a * t.prod = acc * (a * t.prod) := by ring
          _ < u32Mod := h

/-! ### End-to-end correctness of the LCM embedding under no-overflow -/

theorem daLCM_correct (arr : List Nat)
    (hpos : ∀ a ∈ arr, 0 < a)
    (hlcm : listLcm arr < u32Mod) :
    daLCM arr = some (listLcm arr) := by
  have hLpos : 0 < listLcm arr := listLcm_pos arr hpos
  have hinv : ∀ p, p.Prime → p < 2 → lcmDivCount p arr ≤ 1 := by
    intro p hp hplt
    exact absurd hp.two_le (by omega)
  have hfuel : arr.sum + (lcmMaxNum arr + 1 - 2) + 1 ≤ lcmFuel arr := by
    rw [lcmFuel, foldl_add_eq_sum]
    omega
  obtain ⟨arr2, res2, hloop, hres, hpos2, hcount2⟩ :=
    lcmLoop_spec (lcmFuel arr) arr 1 2 (lcmMaxNum arr) (listLcm arr)
      (Nat.le_refl 2) hpos (le_lcmMaxNum arr) hinv (Nat.one_mul _) hLpos hlcm hfuel
  have hprod : listLcm arr2 = arr2.prod := listLcm_eq_prod_of_count arr2 hpos2 hcount2
  have hfold : arr2.foldl (fun r a => r * a % u32Mod) res2 = res2 * arr2.prod :=
    foldl_mul_mod arr2 res2 (by rw [← hprod, hres]; exact hlcm) hpos2
  rw [daLCM, hloop]
  show some (arr2.foldl (fun r a => r * a % u32Mod) res2) = some (listLcm arr)
  rw [hfold, ← hprod, hres]

theorem foldl_append_singleton {α β : Type} (f : β → α) (l : List β) (init : List α) :
    l.foldl (fun acc x => acc ++ [f x]) init = init ++ l.map f := by
  induction l generalizing init with
  | nil => simp
  | cons x t ih => simp [ih]

theorem foldl_append_block {α β : Type} (g : β → List α) (l : List β) (init : List α) :
    l.foldl (fun acc x => acc ++ g x) init = init ++ l.flatMap g := by
  induction l generalizing init with
  | nil => simp
  | cons x t ih => simp [ih]

theorem foldl_funext {α β : Type} (f g : α → β → α) (l : List β) (init : α)
    (h : ∀ acc x, x ∈ l → f acc x = g acc x) :
    l.foldl f init = l.foldl g init := by
  induction l generalizing init with
  | nil => rfl
  | cons x t ih =>
      simp only [List.foldl_cons]
      rw [h init x (List.mem_cons_self x t)]
      exact ih _ (fun acc y hy => h acc y (List.mem_cons_of_mem _ hy))

theorem generatePacketSchedule_eq_flatMap (info : List (Nat × Nat × Nat))
    (n rps r0 : Nat) :
    generatePacketSchedule info n rps r0 =
      (List.range n).flatMap (stationBlock info rps r0) := by
  unfold generatePacketSchedule
  have hinner : ∀ (i : Nat) (acc : List SchedEntry),
      (List.range (rps / (info.getD i (0,0,0)).1)).foldl
        (fun sched2 j =>
          sched2 ++ [⟨r0 + j * (info.getD i (0,0,0)).1,
                      r0 + j * (info.getD i (0,0,0)).1 + (info.getD i (0,0,0)).2.1,
                      (info.getD i (0,0,0)).2.2, i⟩])
        acc = acc ++ stationBlock info rps r0 i := by
    intro i acc
    rw [stationBlock]
    exact foldl_append_singleton _ _ _
  calc (List.range n).foldl
        (fun sched i =>
          (List.range (rps / (info.getD i (0,0,0)).1)).foldl
            (fun sched2 j =>
              sched2 ++ [⟨r0 + j * (info.getD i (0,0,0)).1,
                          r0 + j * (info.getD i (0,0,0)).1 + (info.getD i (0,0,0)).2.1,
                          (info.getD i (0,0,0)).2.2, i⟩]) sched) []
      = (List.range n).foldl (fun sched i => sched ++ stationBlock info rps r0 i) [] := by
        apply foldl_funext
        intro acc i _
        exact hinner i acc
    _ = [] ++ (List.range n).flatMap (stationBlock info rps r0) := foldl_append_block _ _ _
    _ = (List.range n).flatMap (stationBlock info rps r0) := by simp

theorem drrDropScan_iff (sched : List SchedEntry) (aid curr : Nat) :
    drrDropScan sched aid curr = true ↔
      ∃ x ∈ sched, x.sta = aid ∧ x.deadline = curr := by
  induction sched with
  | nil => simp [drrDropScan]
  | cons x rest ih =>
      by_cases h : x.sta = aid ∧ x.deadline = curr
      · simp [drrDropScan, h]
      · simp only [drrDropScan, if_neg h, ih, List.mem_cons]
        constructor
        · rintro ⟨y, hy, hys⟩
          exact ⟨y, Or.inr hy, hys⟩
        · rintro ⟨y, hy | hy, hys⟩
          · exact absurd (hy ▸ hys) h
          · exact ⟨y, hy, hys⟩

/-! ### Claim C4: schedule generation is pure and has the specified shape -/

/-- C4: for every per-station (period, deadline, penalty) map and every current
round r0, the schedule generator emits, for each station i in increasing
station-id order, exactly rps / period_i entries (arrival = r0 + k*period_i,
deadline = arrival + deadline_i, penalty_i, i) for k = 0 .. rps/period_i - 1
(the flatMap of the stationBlock closed form states exactly this), and
re-running it with the same inputs yields an identical PacketSchedule. -/
theorem c4_schedule_generation_shape (info : List (Nat × Nat × Nat)) (n rps r0 : Nat) :
    generatePacketSchedule info n rps r0 =
      (List.range n).flatMap (stationBlock info rps r0) ∧
    (∀ (info2 : List (Nat × Nat × Nat)) (n2 rps2 r02 : Nat),
      info2 = info → n2 = n → rps2 = rps → r02 = r0 →
      generatePacketSchedule info2 n2 rps2 r02 = generatePacketSchedule info n rps r0) := by
  refine ⟨generatePacketSchedule_eq_flatMap info n rps r0, ?_⟩
  intro info2 n2 rps2 r02 h1 h2 h3 h4
  rw [h1, h2, h3, h4]

/-- Witness for C4 at a concrete configuration (two stations, periods 2 and 4,
horizon 4, current round 3). -/
theorem c4_schedule_generation_shape_witness :
    generatePacketSchedule [(2, 1, 5), (4, 0, 7)] 2 4 3 =
      (List.range 2).flatMap (stationBlock [(2, 1, 5), (4, 0, 7)] 4 3) ∧
    generatePacketSchedule [(2, 1, 5), (4, 0, 7)] 2 4 3 =
      generatePacketSchedule [(2, 1, 5), (4, 0, 7)] 2 4 3 :=
  ⟨(c4_schedule_generation_shape [(2, 1, 5), (4, 0, 7)] 2 4 3).1,
   (c4_schedule_generation_shape [(2, 1, 5), (4, 0, 7)] 2 4 3).2
     [(2, 1, 5), (4, 0, 7)] 2 4 3 rfl rfl rfl rfl⟩

/-! ### Claim C9: baseline deadline round robin drop rule -/

/-- C9: at the end of a round, a pending (overflow) candidate's packet is
dequeued (dropped, with a dropped decision logged) if and only if some
PacketSchedule entry of that station (the aid decremented to the 0-based
schedule station id) has deadlineRound equal to the current round; otherwise
the packet stays queued and a buffered decision is logged. -/
theorem c9_drr_drop_iff (sched : List SchedEntry) (aidRaw curr : Nat) :
    drrPendingDecision sched aidRaw curr = true ↔
      ∃ x ∈ sched, x.sta = aidRaw - 1 ∧ x.deadline = curr :=
  drrDropScan_iff sched (aidRaw - 1) curr

/-! ### Claim C5: LCM correctness -/

/-- C5 counterexample: the claim that LCM returns the least common multiple for
every non-empty array of positive periods fails, because the uint32 accumulator
overflows: for the seven positive periods below the true lcm is 10131543907 but
the function returns its residue 1541609315 mod 2^32. -/
theorem c5_counterexample :
    daLCM [17, 19, 23, 29, 31, 37, 41] = some 1541609315 ∧
    listLcm [17, 19, 23, 29, 31, 37, 41] = 10131543907 ∧
    (1541609315 : Nat) ≠ 10131543907 := by
  refine ⟨by decide, by decide, by decide⟩

/-- C5 amended: for every non-empty array of positive periods that fit in a C
int, provided the true least common multiple fits in uint32 (no overflow), LCM
returns the least common multiple, and consequently GetRoundsPerSchedule on a
fresh (zero-cached) state whose station periods form that array returns it. -/
theorem c5_lcm_correct (arr : List Nat) (_hne : arr ≠ [])
    (hpos : ∀ a ∈ arr, 0 < a ∧ a < 2147483648)
    (hlcm : listLcm arr < u32Mod) :
    daLCM arr = some (listLcm arr) ∧
    (∀ s : DaConfigState, s.roundsPerSchedule = 0 →
      s.staPacketInfo.map (fun t => t.1) = arr →
      getRoundsPerSchedule s =
        some (listLcm arr, { s with roundsPerSchedule := listLcm arr })) := by
  have hda : daLCM arr = some (listLcm arr) :=
    daLCM_correct arr (fun a ha => (hpos a ha).1) hlcm
  refine ⟨hda, ?_⟩
  intro s hzero hmap
  rw [getRoundsPerSchedule, if_pos hzero, hmap, hda]

/-- Witness for C5 at periods 4 and 6 (lcm 12). -/
theorem c5_lcm_correct_witness :
    daLCM [4, 6] = some (listLcm [4, 6]) ∧
    getRoundsPerSchedule ⟨0, 0, [(4, 1, 5), (6, 2, 7)]⟩ =
      some (listLcm [4, 6], ⟨listLcm [4, 6], 0, [(4, 1, 5), (6, 2, 7)]⟩) :=
  ⟨(c5_lcm_correct [4, 6] (by decide) (by decide) (by decide)).1,
   (c5_lcm_correct [4, 6] (by decide) (by decide) (by decide)).2
     ⟨0, 0, [(4, 1, 5), (6, 2, 7)]⟩ rfl rfl⟩

/-! ### Claim C6: error handling of zero periods versus bad channel widths -/

/-- C6 counterexample: a zero period is not a loudly reported fatal error; for
periods 0 and 4 the LCM computation terminates normally with value 0 and
GetRoundsPerSchedule proceeds, returning 0 and leaving the cache at 0, with no
error signalled. -/
theorem c6_counterexample :
    getRoundsPerSchedule ⟨0, 0, [(0, 1, 1), (4, 1, 1)]⟩ =
      some (0, ⟨0, 0, [(0, 1, 1), (4, 1, 1)]⟩) ∧
    daLCM [0, 4] = some 0 := by
  refine ⟨by decide, by decide⟩

/-- C6 amended: only the unsupported channel width is a fatal configuration
error (GetRuTypePerRound reaches NS_FATAL_ERROR, modeled none, for any width
other than 20 and 40); a zero period is not detected: LCM returns 0 without
error, GetRoundsPerSchedule proceeds, returns 0 and never caches, and
GetPacketsPerSchedule then divides by that zero horizon. -/
theorem c6_error_handling :
    (∀ width pps : Nat, width ≠ 20 → width ≠ 40 → getRuTypePerRound width pps = none) ∧
    (∀ s : DaConfigState, s.roundsPerSchedule = 0 →
      s.staPacketInfo = [(0, 1, 1), (4, 1, 1)] →
      getRoundsPerSchedule s = some (0, s)) := by
  constructor
  · intro width pps h20 h40
    rw [getRuTypePerRound, if_neg h20, if_neg h40]
  · intro s hzero hinfo
    have hda : daLCM (s.staPacketInfo.map (fun t => t.1)) = some 0 := by
      rw [hinfo]; decide
    rw [getRoundsPerSchedule, if_pos hzero, hda]
    have hs : { s with roundsPerSchedule := 0 } = s := by
      obtain ⟨r, pk, inf⟩ := s
      have hr : r = 0 := hzero
      rw [hr]
    show some (0, { s with roundsPerSchedule := 0 }) = some (0, s)
    rw [hs]

/-- Witness for C6: channel width 80 is fatal, and the concrete zero-period
state from the counterexample proceeds without error. -/
theorem c6_error_handling_witness :
    getRuTypePerRound 80 7 = none ∧
    getRoundsPerSchedule ⟨0, 0, [(0, 1, 1), (4, 1, 1)]⟩ =
      some (0, ⟨0, 0, [(0, 1, 1), (4, 1, 1)]⟩) :=
  ⟨c6_error_handling.1 80 7 (by decide) (by decide),
   c6_error_handling.2 ⟨0, 0, [(0, 1, 1), (4, 1, 1)]⟩ rfl rfl⟩

/-! ### Claim C10: memoization of the horizon computations -/

/-- C10 counterexample: with a zero period the first GetRoundsPerSchedule call
computes 0, which is the cache sentinel, so nothing is effectively cached;
after SetStaPacketInfo replaces the info, a subsequent call returns 5, not the
first computed value 0 — the horizon length is not fixed after first use. -/
theorem c10_counterexample :
    getRoundsPerSchedule ⟨0, 0, [(0, 1, 1)]⟩ = some (0, ⟨0, 0, [(0, 1, 1)]⟩) ∧
    getRoundsPerSchedule (setStaPacketInfo [(5, 1, 1)] ⟨0, 0, [(0, 1, 1)]⟩) =
      some (5, ⟨5, 0, [(5, 1, 1)]⟩) ∧
    (5 : Nat) ≠ 0 := by
  refine ⟨by decide, by decide, by decide⟩

/-- C10 amended: the two getters are memoized provided the value computed and
stored by the first call is nonzero (0 is the cache sentinel): after such a
first call, every subsequent call returns exactly the cached value and leaves
the state unchanged, even if SetStaPacketInfo has replaced the per-station
packet info in between. -/
theorem c10_memoization :
    (∀ (s : DaConfigState) (v : Nat) (s2 : DaConfigState),
      getRoundsPerSchedule s = some (v, s2) → v ≠ 0 →
      ∀ info, getRoundsPerSchedule (setStaPacketInfo info s2) =
        some (v, setStaPacketInfo info s2)) ∧
    (∀ (s : DaConfigState) (v : Nat) (s2 : DaConfigState),
      getPacketsPerSchedule s = some (v, s2) → v ≠ 0 →
      ∀ info, getPacketsPerSchedule (setStaPacketInfo info s2) =
        some (v, setStaPacketInfo info s2)) := by
  constructor
  · intro s v s2 hcall hne info
    have hs2 : s2.roundsPerSchedule = v := by
      by_cases hz : s.roundsPerSchedule = 0
      · rw [getRoundsPerSchedule, if_pos hz] at hcall
        cases hda : daLCM (s.staPacketInfo.map (fun t => t.1)) with
        | none => rw [hda] at hcall; cases hcall
        | some w =>
            rw [hda] at hcall
            have : w = v ∧ { s with roundsPerSchedule := w } = s2 := by
              cases hcall; exact ⟨rfl, rfl⟩
            rw [← this.2, this.1]
      · rw [getRoundsPerSchedule, if_neg hz] at hcall
        have : s.roundsPerSchedule = v ∧ s = s2 := by
          cases hcall; exact ⟨rfl, rfl⟩
        rw [← this.2, this.1]
    rw [getRoundsPerSchedule]
    have : (setStaPacketInfo info s2).roundsPerSchedule = v := hs2
    rw [if_neg (by rw [this]; exact hne), this]
  · intro s v s2 hcall hne info
    have hs2 : s2.packetsPerSchedule = v := by
      by_cases hz : s.packetsPerSchedule = 0
      · rw [getPacketsPerSchedule, if_pos hz] at hcall
        cases hloop : (s.staPacketInfo.foldl
          (fun acc t =>
            match acc with
            | none => none
            | some (packets, st) =>
                match getRoundsPerSchedule st with
                | some (rps, st2) => some (packets + rps / t.1, st2)
                | none => none)
          (some (0, s))) with
        | none => rw [hloop] at hcall; cases hcall
        | some pst =>
            rw [hloop] at hcall
            have : pst.1 = v ∧ { pst.2 with packetsPerSchedule := pst.1 } = s2 := by
              cases hcall; exact ⟨rfl, rfl⟩
            rw [← this.2, ← this.1]
      · rw [getPacketsPerSchedule, if_neg hz] at hcall
        have : s.packetsPerSchedule = v ∧ s = s2 := by
          cases hcall; exact ⟨rfl, rfl⟩
        rw [← this.2, this.1]
    rw [getPacketsPerSchedule]
    have : (setStaPacketInfo info s2).packetsPerSchedule = v := hs2
    rw [if_neg (by rw [this]; exact hne), this]

/-- Witness for C10: periods 2 and 4 give horizon 4 and packet count 3; both
survive a SetStaPacketInfo that replaces the info. -/
theorem c10_memoization_witness :
    getRoundsPerSchedule (setStaPacketInfo [(3, 0, 0)] ⟨4, 0, [(2, 1, 1), (4, 1, 1)]⟩) =
      some (4, setStaPacketInfo [(3, 0, 0)] ⟨4, 0, [(2, 1, 1), (4, 1, 1)]⟩) ∧
    getPacketsPerSchedule (setStaPacketInfo [(3, 0, 0)] ⟨4, 3, [(2, 1, 1), (4, 1, 1)]⟩) =
      some (3, setStaPacketInfo [(3, 0, 0)] ⟨4, 3, [(2, 1, 1), (4, 1, 1)]⟩) :=
  ⟨c10_memoization.1 ⟨0, 0, [(2, 1, 1), (4, 1, 1)]⟩ 4 ⟨4, 0, [(2, 1, 1), (4, 1, 1)]⟩
     (by decide) (by decide) [(3, 0, 0)],
   c10_memoization.2 ⟨4, 0, [(2, 1, 1), (4, 1, 1)]⟩ 3 ⟨4, 3, [(2, 1, 1), (4, 1, 1)]⟩
     (by decide) (by decide) [(3, 0, 0)]⟩

/-! ### Solver graph lemmas -/

theorem mem_mwmEdges (sched : List SchedEntry) (r0 rounds rus : Nat)
    (e : Nat × Nat) (he : e ∈ mwmEdges sched r0 rounds rus) :
    ∃ d t, d < rounds ∧ t < rus ∧ e.1 < sched.length ∧
      e.2 = sched.length + d * rus + t ∧
      (schedGetD sched e.1).arrival ≤ r0 + d ∧
      r0 + d ≤ (schedGetD sched e.1).deadline := by
  obtain ⟨i, hi, hrest⟩ := List.mem_flatMap.mp he
  obtain ⟨d, hd, hrest2⟩ := List.mem_flatMap.mp hrest
  by_cases hwin : (schedGetD sched i).arrival ≤ r0 + d ∧
      r0 + d ≤ (schedGetD sched i).deadline
  · rw [if_pos hwin] at hrest2
    obtain ⟨t, ht, he2⟩ := List.mem_map.mp hrest2
    have hi2 : i < sched.length := List.mem_range.mp hi
    have hd2 : d < rounds := List.mem_range.mp hd
    have ht2 : t < rus := List.mem_range.mp ht
    refine ⟨d, t, hd2, ht2, ?_, ?_, ?_, ?_⟩
    · rw [← he2]; exact hi2
    · rw [← he2]
    · rw [← he2]; exact hwin.1
    · rw [← he2]; exact hwin.2
  · rw [if_neg hwin] at hrest2
    cases hrest2

theorem getRoundFromVertexIndex_slot (packets d t rus r0 : Nat) (ht : t < rus) :
    getRoundFromVertexIndex packets (packets + d * rus + t) rus r0 = r0 + d := by
  rw [getRoundFromVertexIndex]
  have h1 : packets + d * rus + t - packets = d * rus + t := by omega
  rw [h1]
  have hrus : 0 < rus := by omega
  rw [Nat.mul_comm d rus, Nat.mul_add_div hrus, Nat.div_eq_of_lt ht]
  omega

theorem int_neg_of_mul_neg_left (x y : Int) (hx : 0 ≤ x) (h : x * y < 0) : y < 0 := by
  by_contra hy
  push_neg at hy
  have := mul_nonneg hx hy
  omega

theorem int_pos_of_mul_neg_left (x y : Int) (hx : 0 ≤ x) (h : x * y < 0) : 0 < x := by
  rcases lt_or_eq_of_le hx with h1 | h1
  · exact h1
  · exfalso; rw [← h1] at h; simp at h

theorem mem_mcfWindowArcs (sched : List (Nat × Nat × Nat)) (rounds rus : Nat)
    (arc : McfArc) (ha : arc ∈ mcfWindowArcs sched rounds rus) :
    ∃ i j t, i < sched.length ∧ j < rounds ∧ t < rus ∧
      (sched.getD i (0, 0, 0)).1 ≤ j ∧ j ≤ (sched.getD i (0, 0, 0)).2.1 ∧
      arc = ⟨i + 1, (sched.length + 1) + j * rus + t, 1,
             -(((sched.getD i (0, 0, 0)).2.2 : Nat) : Int)⟩ := by
  obtain ⟨i, hi, hrest⟩ := List.mem_flatMap.mp ha
  obtain ⟨j, hj, hrest2⟩ := List.mem_flatMap.mp hrest
  by_cases hwin : (sched.getD i (0, 0, 0)).1 ≤ j ∧ j ≤ (sched.getD i (0, 0, 0)).2.1
  · rw [if_pos hwin] at hrest2
    obtain ⟨t, ht, he2⟩ := List.mem_map.mp hrest2
    exact ⟨i, j, t, List.mem_range.mp hi, List.mem_range.mp hj, List.mem_range.mp ht,
      hwin.1, hwin.2, he2.symm⟩
  · rw [if_neg hwin] at hrest2
    cases hrest2

theorem mcfArcs_getD_cases (sched : List (Nat × Nat × Nat)) (rounds rus : Nat)
    (a : Nat) (ha : a < (mcfArcs sched rounds rus).length) :
    (a < (mcfWindowArcs sched rounds rus).length ∧
      (mcfArcs sched rounds rus).getD a mcfDefaultArc ∈ mcfWindowArcs sched rounds rus) ∨
    (∃ i, i < sched.length ∧
      a = (mcfWindowArcs sched rounds rus).length + i ∧
      (mcfArcs sched rounds rus).getD a mcfDefaultArc = ⟨0, i + 1, 1, 0⟩) ∨
    (∃ s, s < rus * rounds ∧
      a = (mcfWindowArcs sched rounds rus).length + sched.length + s ∧
      (mcfArcs sched rounds rus).getD a mcfDefaultArc =
        ⟨sched.length + 1 + s, sched.length + rus * rounds + 1, 1, 0⟩) := by
  set w := mcfWindowArcs sched rounds rus with hw
  have hlen : (mcfArcs sched rounds rus).length =
      w.length + sched.length + (rus * rounds) := by
    rw [mcfArcs, ← hw]
    simp [mcfSourceArcs, mcfSinkArcs, List.length_append]
    omega
  by_cases h1 : a < w.length
  · left
    refine ⟨h1, ?_⟩
    have : (mcfArcs sched rounds rus).getD a mcfDefaultArc = w.getD a mcfDefaultArc := by
      rw [mcfArcs, ← hw, List.append_assoc, List.getD_append _ _ _ _ h1]
    rw [this, List.getD_eq_getElem w mcfDefaultArc h1]
    exact List.getElem_mem h1
  · right
    have hsplit : (mcfArcs sched rounds rus).getD a mcfDefaultArc =
        (mcfSourceArcs sched.length ++ mcfSinkArcs sched.length (rus * rounds)).getD
          (a - w.length) mcfDefaultArc := by
      rw [mcfArcs, ← hw, List.append_assoc]
      exact List.getD_append_right _ _ _ _ (by omega)
    by_cases h2 : a - w.length < sched.length
    · left
      refine ⟨a - w.length, h2, by omega, ?_⟩
      rw [hsplit]
      have hsrc : (mcfSourceArcs sched.length ++
          mcfSinkArcs sched.length (rus * rounds)).getD (a - w.length) mcfDefaultArc =
          (mcfSourceArcs sched.length).getD (a - w.length) mcfDefaultArc := by
        apply List.getD_append
        rw [mcfSourceArcs, List.length_map, List.length_range]
        exact h2
      rw [hsrc, mcfSourceArcs,
        List.getD_eq_getElem _ mcfDefaultArc (by simpa using h2)]
      simp
    · right
      refine ⟨a - w.length - sched.length, by omega, by omega, ?_⟩
      rw [hsplit]
      have hsk : (mcfSourceArcs sched.length ++
          mcfSinkArcs sched.length (rus * rounds)).getD (a - w.length) mcfDefaultArc =
          (mcfSinkArcs sched.length (rus * rounds)).getD
            (a - w.length - sched.length) mcfDefaultArc := by
        have hlen2 : (mcfSourceArcs sched.length).length = sched.length := by
          simp [mcfSourceArcs]
        rw [List.getD_append_right _ _ _ _ (by omega), hlen2]
      rw [hsk, mcfSinkArcs]
      have hin : a - w.length - sched.length < rus * rounds := by omega
      rw [List.getD_eq_getElem _ mcfDefaultArc (by simpa using hin)]
      simp

/-! ### Claim C1: window invariant of both solver backends -/

/-- C1: every entry (p, r) the solvers insert into the packet-to-round map lies
in the packet's window.  First conjunct: the weighted-matching readback, for
any mate whose matched pairs are edges of the graph the code built (the boost
matching guarantee), inserts only pairs with arrival <= r <= deadline.  Second
conjunct: the standalone min-cost-flow tool, for any flow assignment
whatsoever, emits only pairs with stationArrival <= r <= stationDeadline,
because emission requires a negative flow*cost and only window arcs have
nonzero cost. -/
theorem c1_window_invariant :
    (∀ (sched : List SchedEntry) (r0 rounds rus : Nat) (mate : Nat → Option Nat),
      (∀ v w, mate v = some w →
        (v, w) ∈ mwmEdges sched r0 rounds rus ∨
        (w, v) ∈ mwmEdges sched r0 rounds rus) →
      ∀ pr ∈ mwmPairs sched rounds rus r0 mate,
        (schedGetD sched pr.1).arrival ≤ pr.2 ∧
        pr.2 ≤ (schedGetD sched pr.1).deadline) ∧
    (∀ (sched : List (Nat × Nat × Nat)) (rounds rus : Nat) (flow : Nat → Nat),
      ∀ pr ∈ mcfServedPairs (mcfArcs sched rounds rus) flow sched.length rus,
        (sched.getD pr.1 (0, 0, 0)).1 ≤ pr.2 ∧
        pr.2 ≤ (sched.getD pr.1 (0, 0, 0)).2.1) := by
  constructor
  · intro sched r0 rounds rus mate hedge pr hpr
    obtain ⟨v, _, hv⟩ := List.mem_filterMap.mp hpr
    rw [mwmReadback] at hv
    cases hmate : mate v with
    | none =>
        rw [hmate] at hv
        change (none : Option (Nat × Nat)) = some pr at hv
        cases hv
    | some wv =>
        rw [hmate] at hv
        change (if v < wv then
          some (v, getRoundFromVertexIndex sched.length wv rus r0)
          else none) = some pr at hv
        by_cases hlt : v < wv
        · rw [if_pos hlt] at hv
          have hpr2 : pr = (v, getRoundFromVertexIndex sched.length wv rus r0) := by
            cases hv; rfl
          rcases hedge v wv hmate with hvw | hwv
          · obtain ⟨d, t, _, ht, hvlen, hweq, hw1, hw2⟩ :=
              mem_mwmEdges sched r0 rounds rus (v, wv) hvw
            simp only at hweq
            have hround : getRoundFromVertexIndex sched.length wv rus r0 = r0 + d := by
              rw [hweq]
              exact getRoundFromVertexIndex_slot sched.length d t rus r0 ht
            rw [hpr2]
            simp only
            rw [hround]
            exact ⟨hw1, hw2⟩
          · obtain ⟨d, t, _, _, hwlen, hveq, _, _⟩ :=
              mem_mwmEdges sched r0 rounds rus (wv, v) hwv
            simp only at hveq hwlen
            omega
        · rw [if_neg hlt] at hv
          cases hv
  · intro sched rounds rus flow pr hpr
    obtain ⟨a, hamem, hv⟩ := List.mem_filterMap.mp hpr
    have ha : a < (mcfArcs sched rounds rus).length := List.mem_range.mp hamem
    rw [mcfReadback] at hv
    by_cases hneg : (flow a : Int) * ((mcfArcs sched rounds rus).getD a mcfDefaultArc).cost < 0
    · rw [if_pos hneg] at hv
      have hcost : ((mcfArcs sched rounds rus).getD a mcfDefaultArc).cost < 0 :=
        int_neg_of_mul_neg_left _ _ (Int.natCast_nonneg _) hneg
      rcases mcfArcs_getD_cases sched rounds rus a ha with ⟨_, hmem⟩ | ⟨i, _, _, heq⟩ | ⟨s, _, _, heq⟩
      · obtain ⟨i, j, t, hi, _, ht, hwin1, hwin2, harc⟩ :=
          mem_mcfWindowArcs sched rounds rus _ hmem
        rw [harc] at hv
        have hpr2 : pr = (i + 1 - 1,
            ((sched.length + 1) + j * rus + t - sched.length - 1) / rus) := by
          cases hv; rfl
        have hsimp1 : i + 1 - 1 = i := by omega
        have hsimp2 : (sched.length + 1) + j * rus + t - sched.length - 1 = j * rus + t := by
          omega
        have hdiv : (j * rus + t) / rus = j := by
          have hrus : 0 < rus := by omega
          rw [Nat.mul_comm j rus, Nat.mul_add_div hrus, Nat.div_eq_of_lt ht]
          omega
        rw [hpr2, hsimp1, hsimp2, hdiv]
        exact ⟨hwin1, hwin2⟩
      · rw [heq] at hcost
        simp at hcost
      · rw [heq] at hcost
        simp at hcost
    · rw [if_neg hneg] at hv
      cases hv

/-- Witness for C1: a one-packet schedule with window rounds 0..1, one RU per
round, two rounds; the matching pairs packet 0 with the slot of round 1; the
flow routes packet 0 through the slot of round 0. -/
theorem c1_window_invariant_witness :
    ((schedGetD [⟨0, 1, 5, 0⟩] 0).arrival ≤ 1 ∧ 1 ≤ (schedGetD [⟨0, 1, 5, 0⟩] 0).deadline) ∧
    (([(0, 1, 5)].getD 0 (0, 0, 0)).1 ≤ 0 ∧ 0 ≤ ([(0, 1, 5)].getD 0 (0, 0, 0)).2.1) := by
  have hedge : ∀ v w, (fun v => if v = 0 then some 2 else
      if v = 2 then some 0 else none) v = some w →
      (v, w) ∈ mwmEdges [⟨0, 1, 5, 0⟩] 0 2 1 ∨
      (w, v) ∈ mwmEdges [⟨0, 1, 5, 0⟩] 0 2 1 := by
    intro v w h
    simp only at h
    by_cases hv0 : v = 0
    · subst hv0
      rw [if_pos rfl] at h
      have hw : w = 2 := by cases h; rfl
      subst hw
      left; decide
    · by_cases hv2 : v = 2
      · subst hv2
        rw [if_neg (by omega : ¬ (2 : Nat) = 0), if_pos rfl] at h
        have hw : w = 0 := by cases h; rfl
        subst hw
        right; decide
      · rw [if_neg hv0, if_neg hv2] at h
        cases h
  constructor
  · exact c1_window_invariant.1 [⟨0, 1, 5, 0⟩] 0 2 1
      (fun v => if v = 0 then some 2 else if v = 2 then some 0 else none)
      hedge (0, 1) (by decide)
  · exact c1_window_invariant.2 [(0, 1, 5)] 2 1
      (fun a => if a = 0 then 1 else if a = 2 then 1 else if a = 3 then 1 else 0)
      (0, 0) (by decide)

/-! ### Counting helpers for the capacity invariant -/

theorem length_filter_filterMap {α β : Type} (l : List α) (f : α → Option β)
    (q : β → Bool) :
    ((l.filterMap f).filter q).length =
      (l.filter (fun a => ((f a).map q).getD false)).length := by
  induction l with
  | nil => rfl
  | cons a t ih =>
      cases hfa : f a with
      | none => simp [List.filterMap_cons, List.filter_cons, hfa, ih]
      | some b =>
          cases hqb : q b with
          | false => simp [List.filterMap_cons, List.filter_cons, hfa, hqb, ih]
          | true => simp [List.filterMap_cons, List.filter_cons, hfa, hqb, ih]

theorem length_le_card_of_nodup (l : List Nat) (s : Finset Nat) (h : l.Nodup)
    (hs : ∀ a ∈ l, a ∈ s) : l.length ≤ s.card := by
  have h1 : l.toFinset.card = l.length := List.toFinset_card_of_nodup h
  have h2 : l.toFinset ⊆ s := fun a ha => hs a (List.mem_toFinset.mp ha)
  have := Finset.card_le_card h2
  omega

theorem nodup_length_le_Ico (l : List Nat) (lo w : Nat) (h : l.Nodup)
    (hs : ∀ a ∈ l, lo ≤ a ∧ a < lo + w) : l.length ≤ w := by
  have := length_le_card_of_nodup l (Finset.Ico lo (lo + w)) h
    (fun a ha => Finset.mem_Ico.mpr (hs a ha))
  rwa [Nat.card_Ico, Nat.add_sub_cancel_left] at this

/-! ### Capacity bound for the weighted matching readback -/

theorem mwmKeep_spec (packets rus r0 : Nat) (mate : Nat → Option Nat) (j v : Nat)
    (hkv : ((mwmReadback packets rus r0 mate v).map
      (fun pr => pr.2 == j)).getD false = true) :
    ∃ w, mate v = some w ∧ v < w ∧
      getRoundFromVertexIndex packets w rus r0 = j := by
  cases hmate : mate v with
  | none =>
      have hred : mwmReadback packets rus r0 mate v = none := by
        rw [mwmReadback, hmate]
      rw [hred] at hkv
      cases hkv
  | some w =>
      have hred : mwmReadback packets rus r0 mate v =
          (if v < w then some (v, getRoundFromVertexIndex packets w rus r0)
           else none) := by
        rw [mwmReadback, hmate]
      by_cases hlt : v < w
      · rw [hred, if_pos hlt] at hkv
        exact ⟨w, rfl, hlt, by simpa using hkv⟩
      · rw [hred, if_neg hlt] at hkv
        cases hkv

theorem mwm_capacity (sched : List SchedEntry) (r0 rounds rus : Nat)
    (mate : Nat → Option Nat) (j : Nat)
    (hedge : ∀ v w, mate v = some w →
      (v, w) ∈ mwmEdges sched r0 rounds rus ∨ (w, v) ∈ mwmEdges sched r0 rounds rus)
    (hsym : ∀ v w, mate v = some w → mate w = some v) :
    ((mwmPairs sched rounds rus r0 mate).filter (fun pr => pr.2 == j)).length ≤ rus := by
  rw [mwmPairs, length_filter_filterMap]
  have hkeep : ∀ v, ((mwmReadback sched.length rus r0 mate v).map
      (fun pr => pr.2 == j)).getD false = true →
      ∃ w, mate v = some w ∧ v < w ∧
        getRoundFromVertexIndex sched.length w rus r0 = j :=
    fun v => mwmKeep_spec sched.length rus r0 mate j v
  set lv := (List.range (rus * rounds + sched.length)).filter
    (fun v => ((mwmReadback sched.length rus r0 mate v).map
      (fun pr => pr.2 == j)).getD false) with hlv
  have hnod : lv.Nodup := (List.nodup_range _).filter _
  set wOf : Nat → Nat := fun v => (mate v).getD 0 with hwof
  have hmem : ∀ v ∈ lv, sched.length + (j - r0) * rus ≤ wOf v ∧
      wOf v < sched.length + (j - r0) * rus + rus := by
    intro v hv
    have hkv := (List.mem_filter.mp hv).2
    obtain ⟨w, hmate, hlt, hround⟩ := hkeep v hkv
    have hwv : wOf v = w := by rw [hwof]; simp [hmate]
    rcases hedge v w hmate with hvw | hwv2
    · obtain ⟨d, t, _, ht, _, hweq, _, _⟩ := mem_mwmEdges sched r0 rounds rus (v, w) hvw
      simp only at hweq
      have : getRoundFromVertexIndex sched.length w rus r0 = r0 + d := by
        rw [hweq]
        exact getRoundFromVertexIndex_slot sched.length d t rus r0 ht
      have hd : r0 + d = j := by rw [← this, hround]
      rw [hwv, hweq]
      have hd2 : d = j - r0 := by omega
      subst hd2
      omega
    · obtain ⟨d, t, _, _, hwlen, hveq, _, _⟩ := mem_mwmEdges sched r0 rounds rus (w, v) hwv2
      simp only at hveq hwlen
      omega
  have hinj : ∀ v1 ∈ lv, ∀ v2 ∈ lv, wOf v1 = wOf v2 → v1 = v2 := by
    intro v1 hv1 v2 hv2 heq
    obtain ⟨w1, hm1, _, _⟩ := hkeep v1 (List.mem_filter.mp hv1).2
    obtain ⟨w2, hm2, _, _⟩ := hkeep v2 (List.mem_filter.mp hv2).2
    have hw1 : wOf v1 = w1 := by rw [hwof]; simp [hm1]
    have hw2 : wOf v2 = w2 := by rw [hwof]; simp [hm2]
    have hww : w1 = w2 := by rw [← hw1, ← hw2, heq]
    have hs1 := hsym v1 w1 hm1
    have hs2 := hsym v2 w2 hm2
    rw [hww] at hs1
    rw [hs1] at hs2
    cases hs2
    rfl
  have hmapnod : (lv.map wOf).Nodup := List.Nodup.map_on hinj hnod
  have hlen : (lv.map wOf).length = lv.length := List.length_map lv wOf
  have := nodup_length_le_Ico (lv.map wOf) (sched.length + (j - r0) * rus) rus hmapnod
    (by
      intro a ha
      obtain ⟨v, hv, hva⟩ := List.mem_map.mp ha
      rw [← hva]
      exact hmem v hv)
  omega

/-! ### Capacity bound for the min cost flow readback -/

theorem mcfKeep_spec (arcs : List McfArc) (flow : Nat → Nat) (packets rus j a : Nat)
    (hkv : ((mcfReadback arcs flow packets rus a).map
      (fun pr => pr.2 == j)).getD false = true) :
    (flow a : Int) * ((arcs.getD a mcfDefaultArc).cost) < 0 ∧
    ((arcs.getD a mcfDefaultArc).head - packets - 1) / rus = j := by
  have hred : mcfReadback arcs flow packets rus a =
      (if (flow a : Int) * (arcs.getD a mcfDefaultArc).cost < 0 then
        some ((arcs.getD a mcfDefaultArc).tail - 1,
              ((arcs.getD a mcfDefaultArc).head - packets - 1) / rus)
      else none) := rfl
  rw [hred] at hkv
  by_cases hneg : (flow a : Int) * (arcs.getD a mcfDefaultArc).cost < 0
  · rw [if_pos hneg] at hkv
    exact ⟨hneg, by simpa using hkv⟩
  · rw [if_neg hneg] at hkv
    cases hkv

theorem mcf_negcost_shape (sched : List (Nat × Nat × Nat)) (rounds rus a : Nat)
    (ha : a < (mcfArcs sched rounds rus).length)
    (hcost : ((mcfArcs sched rounds rus).getD a mcfDefaultArc).cost < 0) :
    ∃ i j2 t, i < sched.length ∧ j2 < rounds ∧ t < rus ∧
      (sched.getD i (0, 0, 0)).1 ≤ j2 ∧ j2 ≤ (sched.getD i (0, 0, 0)).2.1 ∧
      (mcfArcs sched rounds rus).getD a mcfDefaultArc =
        ⟨i + 1, (sched.length + 1) + j2 * rus + t, 1,
         -(((sched.getD i (0, 0, 0)).2.2 : Nat) : Int)⟩ := by
  rcases mcfArcs_getD_cases sched rounds rus a ha with
    ⟨_, hmem⟩ | ⟨i, _, _, heq⟩ | ⟨s, _, _, heq⟩
  · exact mem_mcfWindowArcs sched rounds rus _ hmem
  · rw [heq] at hcost; simp at hcost
  · rw [heq] at hcost; simp at hcost

theorem mcf_capacity (sched : List (Nat × Nat × Nat)) (rounds rus : Nat)
    (flow : Nat → Nat) (j : Nat)
    (hcap : ∀ a, a < (mcfArcs sched rounds rus).length →
      flow a ≤ ((mcfArcs sched rounds rus).getD a mcfDefaultArc).cap)
    (hcons : ∀ node, sched.length + 1 ≤ node → node ≤ sched.length + rus * rounds →
      mcfInflow (mcfArcs sched rounds rus) flow node =
      mcfOutflow (mcfArcs sched rounds rus) flow node) :
    ((mcfServedPairs (mcfArcs sched rounds rus) flow sched.length rus).filter
      (fun pr => pr.2 == j)).length ≤ rus := by
  rw [mcfServedPairs, length_filter_filterMap]
  set la := (List.range (mcfArcs sched rounds rus).length).filter
    (fun a => ((mcfReadback (mcfArcs sched rounds rus) flow sched.length rus a).map
      (fun pr => pr.2 == j)).getD false) with hla
  have hlamem : ∀ a ∈ la, a < (mcfArcs sched rounds rus).length := by
    intro a ha
    exact List.mem_range.mp (List.mem_filter.mp ha).1
  have hshape : ∀ a ∈ la,
      ∃ i t, i < sched.length ∧ t < rus ∧
        ((mcfArcs sched rounds rus).getD a mcfDefaultArc).head =
          (sched.length + 1) + j * rus + t ∧
        1 ≤ flow a ∧ j < rounds := by
    intro a ha
    have hk := mcfKeep_spec (mcfArcs sched rounds rus) flow sched.length rus j a
      (List.mem_filter.mp ha).2
    have hcost : ((mcfArcs sched rounds rus).getD a mcfDefaultArc).cost < 0 :=
      int_neg_of_mul_neg_left _ _ (Int.natCast_nonneg _) hk.1
    have hflow : 1 ≤ flow a := by
      have := int_pos_of_mul_neg_left _ _ (Int.natCast_nonneg (flow a)) hk.1
      exact_mod_cast this
    obtain ⟨i, j2, t, hi, hj2, ht, _, _, heq⟩ :=
      mcf_negcost_shape sched rounds rus a (hlamem a ha) hcost
    have hhead : ((mcfArcs sched rounds rus).getD a mcfDefaultArc).head =
        (sched.length + 1) + j2 * rus + t := by rw [heq]
    have hround : ((sched.length + 1) + j2 * rus + t - sched.length - 1) / rus = j2 := by
      have h1 : (sched.length + 1) + j2 * rus + t - sched.length - 1 = j2 * rus + t := by
        omega
      rw [h1, Nat.mul_comm j2 rus, Nat.mul_add_div (by omega), Nat.div_eq_of_lt ht]
      omega
    have hj2j : j2 = j := by
      have := hk.2
      rw [hhead, hround] at this
      exact this
    subst hj2j
    exact ⟨i, t, hi, ht, hhead, hflow, hj2⟩
  set headOf : Nat → Nat := fun a =>
    ((mcfArcs sched rounds rus).getD a mcfDefaultArc).head with hhof
  have hIco : ∀ a ∈ la, (sched.length + 1) + j * rus ≤ headOf a ∧
      headOf a < (sched.length + 1) + j * rus + rus := by
    intro a ha
    obtain ⟨i, t, _, ht, hhead, _, _⟩ := hshape a ha
    rw [hhof]
    simp only
    rw [hhead]
    omega
  have htailUnique : ∀ h c, sched.length + 1 ≤ h → h ≤ sched.length + rus * rounds →
      c < (mcfArcs sched rounds rus).length →
      ((mcfArcs sched rounds rus).getD c mcfDefaultArc).tail = h →
      c = (mcfWindowArcs sched rounds rus).length + sched.length +
        (h - sched.length - 1) := by
    intro h c hh1 hh2 hc htail
    rcases mcfArcs_getD_cases sched rounds rus c hc with
      ⟨_, hmem⟩ | ⟨i, hi, hceq, heq⟩ | ⟨s, hs, hceq, heq⟩
    · obtain ⟨i, j2, t, hi, _, _, _, _, heq⟩ := mem_mcfWindowArcs sched rounds rus _ hmem
      rw [heq] at htail
      simp only at htail
      omega
    · rw [heq] at htail
      simp only at htail
      omega
    · rw [heq] at htail
      simp only at htail
      omega
  have hinj : ∀ a1 ∈ la, ∀ a2 ∈ la, headOf a1 = headOf a2 → a1 = a2 := by
    intro a1 ha1 a2 ha2 hheads
    by_contra hne
    obtain ⟨i1, t1, _, ht1, hhead1, hflow1, hjr⟩ := hshape a1 ha1
    obtain ⟨i2, t2, _, ht2, hhead2, hflow2, _⟩ := hshape a2 ha2
    set h := headOf a1 with hh
    have hh2 : headOf a2 = h := hheads.symm
    have hhlo : sched.length + 1 ≤ h := by
      rw [hh, hhof]; simp only; rw [hhead1]; omega
    have hhhi : h ≤ sched.length + rus * rounds := by
      rw [hh, hhof]; simp only; rw [hhead1]
      have : j * rus + t1 < rounds * rus := by
        calc j * rus + t1 < j * rus + rus := by omega
          _ = (j + 1) * rus := by ring
          _ ≤ rounds * rus := Nat.mul_le_mul_right rus (by omega)
      have hc : rounds * rus = rus * rounds := Nat.mul_comm _ _
      omega
    -- inflow at h is at least 2
    have hin2 : 2 ≤ mcfInflow (mcfArcs sched rounds rus) flow h := by
      rw [mcfInflow]
      have hm1 : a1 ∈ Finset.range (mcfArcs sched rounds rus).length :=
        Finset.mem_range.mpr (hlamem a1 ha1)
      have hm2 : a2 ∈ Finset.range (mcfArcs sched rounds rus).length :=
        Finset.mem_range.mpr (hlamem a2 ha2)
      have hsum := Finset.add_le_sum (s := Finset.range (mcfArcs sched rounds rus).length)
        (f := fun a => if ((mcfArcs sched rounds rus).getD a mcfDefaultArc).head = h
          then flow a else 0)
        (fun i _ => Nat.zero_le _) hm1 hm2 hne
      have he1 : ((mcfArcs sched rounds rus).getD a1 mcfDefaultArc).head = h := by
        rw [hh, hhof]
      have he2 : ((mcfArcs sched rounds rus).getD a2 mcfDefaultArc).head = h := by
        rw [← hh2, hhof]
      simp only [he1, he2, if_pos] at hsum
      omega
    -- outflow at h is at most 1
    have hout1 : mcfOutflow (mcfArcs sched rounds rus) flow h ≤ 1 := by
      set a0 := (mcfWindowArcs sched rounds rus).length + sched.length +
        (h - sched.length - 1) with ha0
      have hlen : (mcfArcs sched rounds rus).length =
          (mcfWindowArcs sched rounds rus).length + sched.length + rus * rounds := by
        rw [mcfArcs]
        simp [mcfSourceArcs, mcfSinkArcs, List.length_append]
        omega
      have ha0lt : a0 < (mcfArcs sched rounds rus).length := by
        rw [hlen, ha0]
        omega
      have ha0arc : ((mcfArcs sched rounds rus).getD a0 mcfDefaultArc).tail = h ∧
          ((mcfArcs sched rounds rus).getD a0 mcfDefaultArc).cap = 1 := by
        rcases mcfArcs_getD_cases sched rounds rus a0 ha0lt with
          ⟨hlt, _⟩ | ⟨i, hi, hceq, _⟩ | ⟨s, hs, hceq, heq⟩
        · omega
        · omega
        · have hseq : s = h - sched.length - 1 := by omega
          rw [heq]
          refine ⟨?_, rfl⟩
          show sched.length + 1 + s = h
          omega
      calc mcfOutflow (mcfArcs sched rounds rus) flow h
          ≤ ∑ c ∈ Finset.range (mcfArcs sched rounds rus).length,
              (if c = a0 then 1 else 0) := by
            rw [mcfOutflow]
            apply Finset.sum_le_sum
            intro c hc
            by_cases htc : ((mcfArcs sched rounds rus).getD c mcfDefaultArc).tail = h
            · have hca0 : c = a0 := htailUnique h c hhlo hhhi (Finset.mem_range.mp hc) htc
              rw [if_pos htc, if_pos hca0, hca0]
              have := hcap a0 ha0lt
              omega
            · rw [if_neg htc]
              exact Nat.zero_le _
        _ = 1 := by
            rw [Finset.sum_ite_eq' (Finset.range (mcfArcs sched rounds rus).length) a0
              (fun _ => 1)]
            rw [if_pos (Finset.mem_range.mpr ha0lt)]
    have := hcons h hhlo hhhi
    omega
  have hnod : la.Nodup := (List.nodup_range _).filter _
  have hmapnod : (la.map headOf).Nodup := List.Nodup.map_on hinj hnod
  have hlen2 : (la.map headOf).length = la.length := List.length_map la headOf
  have := nodup_length_le_Ico (la.map headOf) ((sched.length + 1) + j * rus) rus hmapnod
    (by
      intro a ha
      obtain ⟨v, hv, hva⟩ := List.mem_map.mp ha
      rw [← hva]
      exact hIco v hv)
  omega

/-! ### Claim C2: capacity invariant of both solver backends -/

/-- C2: for every round j, the number of packets the solver maps to round j
never exceeds rus = GetRusPerRound(GetRuTypePerRound()).  First conjunct: the
weighted-matching readback, for any mate that is a matching of the graph the
code built (matched pairs are edges, mate is symmetric), inserts at most rus
pairs per round, because each round contributes exactly rus slot vertices and
each slot is matched to at most one packet.  Second conjunct: the standalone
min-cost-flow tool, for any flow respecting the unit arc capacities and
conserving flow at the slot nodes, emits at most rus pairs per round, because
each slot node forwards at most one unit to the sink. -/
theorem c2_capacity_invariant :
    (∀ (width pps : Nat) (rt : RuType) (rus : Nat) (sched : List SchedEntry)
        (r0 rounds : Nat) (mate : Nat → Option Nat) (j : Nat),
      getRuTypePerRound width pps = some rt →
      getRusPerRound width rt = some rus →
      (∀ v w, mate v = some w →
        (v, w) ∈ mwmEdges sched r0 rounds rus ∨
        (w, v) ∈ mwmEdges sched r0 rounds rus) →
      (∀ v w, mate v = some w → mate w = some v) →
      ((mwmPairs sched rounds rus r0 mate).filter (fun pr => pr.2 == j)).length ≤ rus) ∧
    (∀ (width pps : Nat) (rt : RuType) (rus : Nat) (sched : List (Nat × Nat × Nat))
        (rounds : Nat) (flow : Nat → Nat) (j : Nat),
      getRuTypePerRound width pps = some rt →
      getRusPerRound width rt = some rus →
      (∀ a, a < (mcfArcs sched rounds rus).length →
        flow a ≤ ((mcfArcs sched rounds rus).getD a mcfDefaultArc).cap) →
      (∀ node, sched.length + 1 ≤ node → node ≤ sched.length + rus * rounds →
        mcfInflow (mcfArcs sched rounds rus) flow node =
        mcfOutflow (mcfArcs sched rounds rus) flow node) →
      ((mcfServedPairs (mcfArcs sched rounds rus) flow sched.length rus).filter
        (fun pr => pr.2 == j)).length ≤ rus) := by
  constructor
  · intro width pps rt rus sched r0 rounds mate j _ _ hedge hsym
    exact mwm_capacity sched r0 rounds rus mate j hedge hsym
  · intro width pps rt rus sched rounds flow j _ _ hcap hcons
    exact mcf_capacity sched rounds rus flow j hcap hcons

/-- Witness for C2 at channel width 40 with one packet per schedule (RU type
484, one RU per round): the matching maps packet 0 to round 1, giving one
mapped packet in round 1; the flow serves packet 0 in round 0, giving one
emitted pair in round 0. -/
theorem c2_capacity_invariant_witness :
    ((mwmPairs [⟨0, 1, 5, 0⟩] 2 1 0
        (fun v => if v = 0 then some 2 else if v = 2 then some 0 else none)).filter
      (fun pr => pr.2 == 1)).length ≤ 1 ∧
    ((mcfServedPairs (mcfArcs [(0, 1, 5)] 2 1)
        (fun a => if a = 0 then 1 else if a = 2 then 1 else if a = 3 then 1 else 0)
        (List.length [((0 : Nat), (1 : Nat), (5 : Nat))]) 1).filter
      (fun pr => pr.2 == 0)).length ≤ 1 := by
  have hedge : ∀ v w, (fun v => if v = 0 then some 2 else
      if v = 2 then some 0 else none) v = some w →
      (v, w) ∈ mwmEdges [⟨0, 1, 5, 0⟩] 0 2 1 ∨
      (w, v) ∈ mwmEdges [⟨0, 1, 5, 0⟩] 0 2 1 := by
    intro v w h
    simp only at h
    by_cases hv0 : v = 0
    · subst hv0
      rw [if_pos rfl] at h
      have hw : w = 2 := by cases h; rfl
      subst hw
      left; decide
    · by_cases hv2 : v = 2
      · subst hv2
        rw [if_neg (by omega : ¬ (2 : Nat) = 0), if_pos rfl] at h
        have hw : w = 0 := by cases h; rfl
        subst hw
        right; decide
      · rw [if_neg hv0, if_neg hv2] at h
        cases h
  have hsym : ∀ v w, (fun v => if v = 0 then some 2 else
      if v = 2 then some 0 else none) v = some w →
      (fun v => if v = 0 then some 2 else if v = 2 then some 0 else none) w =
        some v := by
    intro v w h
    simp only at h ⊢
    by_cases hv0 : v = 0
    · subst hv0
      rw [if_pos rfl] at h
      have hw : w = 2 := by cases h; rfl
      subst hw
      decide
    · by_cases hv2 : v = 2
      · subst hv2
        rw [if_neg (by omega : ¬ (2 : Nat) = 0), if_pos rfl] at h
        have hw : w = 0 := by cases h; rfl
        subst hw
        decide
      · rw [if_neg hv0, if_neg hv2] at h
        cases h
  have hcap : ∀ a, a < (mcfArcs [(0, 1, 5)] 2 1).length →
      (fun a => if a = 0 then 1 else if a = 2 then 1 else if a = 3 then 1 else 0) a ≤
      ((mcfArcs [(0, 1, 5)] 2 1).getD a mcfDefaultArc).cap := by
    decide
  have hcons : ∀ node, List.length [((0 : Nat), (1 : Nat), (5 : Nat))] + 1 ≤ node →
      node ≤ List.length [((0 : Nat), (1 : Nat), (5 : Nat))] + 1 * 2 →
      mcfInflow (mcfArcs [(0, 1, 5)] 2 1)
        (fun a => if a = 0 then 1 else if a = 2 then 1 else if a = 3 then 1 else 0) node =
      mcfOutflow (mcfArcs [(0, 1, 5)] 2 1)
        (fun a => if a = 0 then 1 else if a = 2 then 1 else if a = 3 then 1 else 0) node := by
    intro node h1 h2
    have hn : node = 2 ∨ node = 3 := by
      simp only [List.length_cons, List.length_nil] at h1 h2
      omega
    rcases hn with hn | hn
    · subst hn; decide
    · subst hn; decide
  exact ⟨c2_capacity_invariant.1 40 1 RuType.ru484 1 [⟨0, 1, 5, 0⟩] 0 2
      (fun v => if v = 0 then some 2 else if v = 2 then some 0 else none) 1
      (by decide) (by decide) hedge hsym,
    c2_capacity_invariant.2 40 1 RuType.ru484 1 [(0, 1, 5)] 2
      (fun a => if a = 0 then 1 else if a = 2 then 1 else if a = 3 then 1 else 0) 0
      (by decide) (by decide) hcap hcons⟩

/-! ### Engine model lemmas -/

theorem daProcessCandidate_consumes (s : DaEngineState) (aid : Nat) :
    (daProcessCandidate s aid).regenCount = s.regenCount ∧
    ∀ pr ∈ (daProcessCandidate s aid).packetToRoundMap, pr ∈ s.packetToRoundMap := by
  rw [daProcessCandidate]
  split
  · exact ⟨rfl, fun pr hpr => hpr⟩
  · split
    · split
      · exact ⟨rfl, fun pr hpr => List.mem_of_mem_filter hpr⟩
      · exact ⟨rfl, fun pr hpr => hpr⟩
    · exact ⟨rfl, fun pr hpr => hpr⟩

theorem daComputeDl_consumes (cands : List Nat) :
    ∀ s : DaEngineState,
      (daComputeDl s cands).regenCount = s.regenCount ∧
      ∀ pr ∈ (daComputeDl s cands).packetToRoundMap, pr ∈ s.packetToRoundMap := by
  have haux : ∀ (l : List Nat) (s : DaEngineState),
      (l.foldl (fun st aid => if st.assertFailed then st
        else daProcessCandidate st aid) s).regenCount = s.regenCount ∧
      ∀ pr ∈ (l.foldl (fun st aid => if st.assertFailed then st
        else daProcessCandidate st aid) s).packetToRoundMap,
        pr ∈ s.packetToRoundMap := by
    intro l
    induction l with
    | nil => exact fun s => ⟨rfl, fun pr hpr => hpr⟩
    | cons aid t ih =>
        intro s
        simp only [List.foldl_cons]
        by_cases hfail : s.assertFailed
        · rw [if_pos hfail]
          exact ih s
        · rw [if_neg hfail]
          obtain ⟨hrc, hsub⟩ := ih (daProcessCandidate s aid)
          obtain ⟨hrc2, hsub2⟩ := daProcessCandidate_consumes s aid
          exact ⟨by rw [hrc, hrc2], fun pr hpr => hsub2 pr (hsub pr hpr)⟩
  intro s
  rw [daComputeDl]
  by_cases hg : s.started && s.offsetSet
  · rw [if_pos hg]
    exact haux cands s
  · rw [if_neg hg]
    exact ⟨rfl, fun pr hpr => hpr⟩

theorem daTryPpdu_spec (s : DaEngineState) (c : Bool) (out : List (Nat × Nat)) :
    ((daTryPpdu s c out).regenCount = s.regenCount ∧
      (daTryPpdu s c out).packetToRoundMap = s.packetToRoundMap) ∨
    ((daTryPpdu s c out).regenCount = s.regenCount + 1 ∧
      s.started = true ∧ s.packetToRoundMap = [] ∧
      s.currRound % s.roundsPerSchedule = 0) := by
  by_cases hg : (s.started && s.packetToRoundMap.isEmpty &&
      (s.currRound % s.roundsPerSchedule == 0) && c) = true
  · right
    have hparts := hg
    simp only [Bool.and_eq_true, beq_iff_eq] at hparts
    refine ⟨?_, hparts.1.1.1, List.isEmpty_iff.mp hparts.1.1.2, hparts.1.2⟩
    by_cases hA : (s.started && c && !s.offsetSet) = true
    · simp [daTryPpdu, hA, hg]
    · simp [daTryPpdu, hA, hg]
  · left
    by_cases hA : (s.started && c && !s.offsetSet) = true
    · constructor
      · simp [daTryPpdu, hA, hg]
      · simp [daTryPpdu, hA, hg]
    · constructor
      · simp [daTryPpdu, hA, hg]
      · simp [daTryPpdu, hA, hg]

/-! ### Claim C3: lifecycle of the PacketToRoundMap -/

/-- C3 counterexample: the map is not regenerated at every horizon boundary.
With horizon 2, traffic started and a candidate present, the solver maps packet
0 to round 1 at the round-0 boundary; no candidate shows up in round 1, so the
entry is never consumed; at the round-2 boundary the map is still nonempty and
the TrySendingDlMuPpdu guard (which requires an empty map) skips the rebuild:
regenCount stays at 1 although a boundary with candidates was reached. -/
theorem c3_counterexample :
    (daRun (daInit [(1, 0, 5), (2, 0, 7)] 2 2)
      [DaEvent.notifyStarted, DaEvent.tryPpdu true [(0, 1)],
       DaEvent.nextRound, DaEvent.nextRound]).currRound %
      (daRun (daInit [(1, 0, 5), (2, 0, 7)] 2 2)
        [DaEvent.notifyStarted, DaEvent.tryPpdu true [(0, 1)],
         DaEvent.nextRound, DaEvent.nextRound]).roundsPerSchedule = 0 ∧
    (daRun (daInit [(1, 0, 5), (2, 0, 7)] 2 2)
      [DaEvent.notifyStarted, DaEvent.tryPpdu true [(0, 1)],
       DaEvent.nextRound, DaEvent.nextRound]).started = true ∧
    (daRun (daInit [(1, 0, 5), (2, 0, 7)] 2 2)
      [DaEvent.notifyStarted, DaEvent.tryPpdu true [(0, 1)],
       DaEvent.nextRound, DaEvent.nextRound]).packetToRoundMap ≠ [] ∧
    (daStep (daRun (daInit [(1, 0, 5), (2, 0, 7)] 2 2)
      [DaEvent.notifyStarted, DaEvent.tryPpdu true [(0, 1)],
       DaEvent.nextRound, DaEvent.nextRound])
      (DaEvent.tryPpdu true [(1, 0)])).regenCount =
    (daRun (daInit [(1, 0, 5), (2, 0, 7)] 2 2)
      [DaEvent.notifyStarted, DaEvent.tryPpdu true [(0, 1)],
       DaEvent.nextRound, DaEvent.nextRound]).regenCount := by
  decide

/-- C3 amended: every engine step either leaves the regeneration count alone
and only consumes the map (the new map is a subset of the old), or it is a
rebuild step, and a rebuild happens only with traffic started, at a horizon
boundary, from a map that is already empty because it was fully consumed (so
the rebuild repopulates an empty map and no reader mixes old and new entries);
rebuilds are not guaranteed once per horizon: a boundary reached with leftover
entries skips the rebuild. -/
theorem c3_map_lifecycle (s : DaEngineState) (e : DaEvent)
    (_hrps : 0 < s.roundsPerSchedule) :
    ((daStep s e).regenCount = s.regenCount ∧
      ∀ pr ∈ (daStep s e).packetToRoundMap, pr ∈ s.packetToRoundMap) ∨
    ((daStep s e).regenCount = s.regenCount + 1 ∧
      s.started = true ∧ s.packetToRoundMap = [] ∧
      s.currRound % s.roundsPerSchedule = 0) := by
  cases e with
  | notifyStarted => exact Or.inl ⟨rfl, fun pr hpr => hpr⟩
  | nextRound => exact Or.inl ⟨rfl, fun pr hpr => hpr⟩
  | computeDl cands =>
      obtain ⟨hrc, hsub⟩ := daComputeDl_consumes cands s
      exact Or.inl ⟨hrc, hsub⟩
  | tryPpdu c out =>
      have hstep : daStep s (DaEvent.tryPpdu c out) = daTryPpdu s c out := rfl
      rw [hstep]
      rcases daTryPpdu_spec s c out with ⟨h1, h2⟩ | h
      · left
        exact ⟨h1, by rw [h2]; exact fun pr hpr => hpr⟩
      · right
        exact h

/-- Witness for C3 at the state reached by the counterexample trace prefix
(horizon 2): the nextRound step consumes nothing and does not rebuild. -/
theorem c3_map_lifecycle_witness :
    ((daStep (daInit [(1, 0, 5), (2, 0, 7)] 2 2) DaEvent.nextRound).regenCount =
        (daInit [(1, 0, 5), (2, 0, 7)] 2 2).regenCount ∧
      ∀ pr ∈ (daStep (daInit [(1, 0, 5), (2, 0, 7)] 2 2)
          DaEvent.nextRound).packetToRoundMap,
        pr ∈ (daInit [(1, 0, 5), (2, 0, 7)] 2 2).packetToRoundMap) ∨
    ((daStep (daInit [(1, 0, 5), (2, 0, 7)] 2 2) DaEvent.nextRound).regenCount =
        (daInit [(1, 0, 5), (2, 0, 7)] 2 2).regenCount + 1 ∧
      (daInit [(1, 0, 5), (2, 0, 7)] 2 2).started = true ∧
      (daInit [(1, 0, 5), (2, 0, 7)] 2 2).packetToRoundMap = [] ∧
      (daInit [(1, 0, 5), (2, 0, 7)] 2 2).currRound %
        (daInit [(1, 0, 5), (2, 0, 7)] 2 2).roundsPerSchedule = 0) :=
  c3_map_lifecycle (daInit [(1, 0, 5), (2, 0, 7)] 2 2) DaEvent.nextRound (by decide)

/-! ### Cursor map lemmas -/

theorem generateMpduToCurrPacketMap_eq (info : List (Nat × Nat × Nat)) (rps : Nat) :
    ∀ n, generateMpduToCurrPacketMap info n rps =
      (List.range n).map (cursorBase info rps) := by
  have haux : ∀ n, (List.range n).foldl
      (fun acc p => (acc.1 ++ [acc.2], acc.2 + rps / (info.getD p (0, 0, 0)).1))
      (([] : List Nat), 0) =
      ((List.range n).map (cursorBase info rps), cursorBase info rps n) := by
    intro n
    induction n with
    | zero => rfl
    | succ m ih =>
        rw [List.range_succ, List.foldl_append, ih]
        simp only [List.foldl_cons, List.foldl_nil, List.map_append, List.map_cons,
          List.map_nil]
        have h2 : cursorBase info rps m + rps / (info.getD m (0, 0, 0)).1 =
            cursorBase info rps (m + 1) := by
          rw [cursorBase, cursorBase, List.range_succ, List.map_append, List.sum_append]
          simp
        rw [h2]
  intro n
  rw [generateMpduToCurrPacketMap, haux n]

theorem flatMap_getD_block (g : Nat → List SchedEntry) (d : SchedEntry) :
    ∀ (l : List Nat) (i k : Nat), i < l.length →
      k < (g (l.getD i 0)).length →
      (l.flatMap g).getD ((((l.take i).map (fun p => (g p).length)).sum) + k) d =
        (g (l.getD i 0)).getD k d := by
  intro l
  induction l with
  | nil => intro i k hi _; cases hi
  | cons b t ih =>
      intro i k hi hk
      cases i with
      | zero =>
          simp only [List.take_zero, List.map_nil, List.sum_nil, Nat.zero_add]
          rw [List.flatMap_cons]
          have hk2 : k < (g b).length := hk
          rw [List.getD_append _ _ _ _ hk2]
          rfl
      | succ i2 =>
          have hi2 : i2 < t.length := by
            simp only [List.length_cons] at hi
            omega
          rw [List.flatMap_cons]
          have htake : ((b :: t).take (i2 + 1)).map (fun p => (g p).length) =
              (g b).length :: (t.take i2).map (fun p => (g p).length) := by
            rw [List.take_succ_cons, List.map_cons]
          rw [htake, List.sum_cons]
          have hoff : (g b).length + ((t.take i2).map (fun p => (g p).length)).sum + k =
              (g b).length + (((t.take i2).map (fun p => (g p).length)).sum + k) := by
            omega
          rw [hoff, List.getD_append_right _ _ _ _ (by omega)]
          have hsub : (g b).length + (((t.take i2).map (fun p => (g p).length)).sum + k) -
              (g b).length = ((t.take i2).map (fun p => (g p).length)).sum + k := by
            omega
          rw [hsub]
          exact ih i2 k hi2 hk

theorem stationBlock_length (info : List (Nat × Nat × Nat)) (rps r0 i : Nat) :
    (stationBlock info rps r0 i).length = rps / (info.getD i (0, 0, 0)).1 := by
  simp [stationBlock]

theorem stationBlock_getD_sta (info : List (Nat × Nat × Nat)) (rps r0 i k : Nat)
    (hk : k < rps / (info.getD i (0, 0, 0)).1) :
    ((stationBlock info rps r0 i).getD k ⟨0, 0, 0, 0⟩).sta = i := by
  have hlen : k < (stationBlock info rps r0 i).length := by
    rw [stationBlock_length]; exact hk
  rw [List.getD_eq_getElem _ _ hlen]
  simp [stationBlock]

/-! ### Claim C8: cursor validity and the late admission assertion -/

/-- C8 counterexample: the assertion can fire in a reachable engine state.
Two stations (periods 1 and 2, horizon 2).  At the round-0 boundary the solver
maps all three schedule entries; both stations consume their round-0 packets,
station 1 consumes its round-1 packet in round 1 (cursor now 2, past its own
block), and when a retransmitted packet of station 1 (MAC aid 1) is processed
again in the same round, the cursor points at station 2's entry and the
NS_ASSERT of ComputeDlMuInfo fires: the claim that the assertion never fires
in reachable states processing a candidate (traffic started, offset set) is
false. -/
theorem c8_counterexample :
    (daRun (daInit [(1, 0, 5), (2, 0, 7)] 2 2)
      [DaEvent.notifyStarted, DaEvent.tryPpdu true [(0, 0), (1, 1), (2, 0)],
       DaEvent.computeDl [1, 2], DaEvent.nextRound,
       DaEvent.computeDl [1]]).started = true ∧
    (daRun (daInit [(1, 0, 5), (2, 0, 7)] 2 2)
      [DaEvent.notifyStarted, DaEvent.tryPpdu true [(0, 0), (1, 1), (2, 0)],
       DaEvent.computeDl [1, 2], DaEvent.nextRound,
       DaEvent.computeDl [1]]).offsetSet = true ∧
    (daRun (daInit [(1, 0, 5), (2, 0, 7)] 2 2)
      [DaEvent.notifyStarted, DaEvent.tryPpdu true [(0, 0), (1, 1), (2, 0)],
       DaEvent.computeDl [1, 2], DaEvent.nextRound,
       DaEvent.computeDl [1]]).assertFailed = false ∧
    (daStep (daRun (daInit [(1, 0, 5), (2, 0, 7)] 2 2)
      [DaEvent.notifyStarted, DaEvent.tryPpdu true [(0, 0), (1, 1), (2, 0)],
       DaEvent.computeDl [1, 2], DaEvent.nextRound,
       DaEvent.computeDl [1]])
      (DaEvent.computeDl [1])).assertFailed = true := by
  decide

/-- C8 amended: the resynchronization performed by GenerateMpduToCurrPacketMap
is correct: right after a new horizon's schedule and cursor map are generated,
every station's cursor points at the base of its own run in the PacketSchedule,
and the assertion predicate holds at every index inside that run
(m_packetSchedule[cursor_i + k][3] = i for all k below the station's
per-horizon packet count); the assertion can still fire once a station's
cursor has been advanced past its run, as the counterexample shows. -/
theorem c8_cursor_resync (info : List (Nat × Nat × Nat)) (n rps r0 : Nat)
    (i k : Nat) (hi : i < n) (hk : k < rps / (info.getD i (0, 0, 0)).1) :
    (schedGetD (generatePacketSchedule info n rps r0)
      ((generateMpduToCurrPacketMap info n rps).getD i 0 + k)).sta = i := by
  have hcursor : (generateMpduToCurrPacketMap info n rps).getD i 0 =
      cursorBase info rps i := by
    rw [generateMpduToCurrPacketMap_eq]
    rw [List.getD_eq_getElem _ _ (by simpa using hi)]
    simp
  have hbase : cursorBase info rps i =
      (((List.range n).take i).map
        (fun p => (stationBlock info rps r0 p).length)).sum := by
    rw [cursorBase, List.take_range]
    have hmin : i ⊓ n = i := Nat.min_eq_left (Nat.le_of_lt hi)
    rw [hmin]
    have : ∀ p, rps / (info.getD p (0, 0, 0)).1 = (stationBlock info rps r0 p).length :=
      fun p => (stationBlock_length info rps r0 p).symm
    simp only [this]
  have hgetD : (List.range n).getD i 0 = i := by
    rw [List.getD_eq_getElem _ _ (by simpa using hi)]
    simp
  have hklen : k < (stationBlock info rps r0 ((List.range n).getD i 0)).length := by
    rw [hgetD, stationBlock_length]
    exact hk
  have hflat := flatMap_getD_block (stationBlock info rps r0) ⟨0, 0, 0, 0⟩
    (List.range n) i k (by simpa using hi) hklen
  rw [schedGetD, generatePacketSchedule_eq_flatMap, hcursor, hbase, hflat, hgetD]
  exact stationBlock_getD_sta info rps r0 i k hk

/-- Witness for C8 at the counterexample configuration: right after
resynchronization station 1 (0-based) has cursor 2 and schedule entry 2
belongs to station 1. -/
theorem c8_cursor_resync_witness :
    (schedGetD (generatePacketSchedule [(1, 0, 5), (2, 0, 7)] 2 2 0)
      ((generateMpduToCurrPacketMap [(1, 0, 5), (2, 0, 7)] 2 2).getD 1 0 + 0)).sta = 1 :=
  c8_cursor_resync [(1, 0, 5), (2, 0, 7)] 2 2 0 1 0 (by decide) (by decide)

/-! ### Claim C7: standalone solver command line and output -/

/-- C7 counterexample: the claim's argument layout (supplyFlow as the fifth
positional argument, triples starting at argv 6) disagrees with the source,
which reads the triples starting at argv 5 (base = 5) and has no supplyFlow
argument at all: on the concrete command line below the two layouts parse
different schedules. -/
theorem c7_counterexample :
    mcfParseSchedule [0, 4, 2, 4, 484, 1, 2, 3, 4, 5, 6, 7] 2 ≠
      mcfClaimParseSchedule [0, 4, 2, 4, 484, 1, 2, 3, 4, 5, 6, 7] 2 ∧
    mcfParseSchedule [0, 4, 2, 4, 484, 1, 2, 3, 4, 5, 6, 7] 2 =
      [(1, 2, 3), (4, 5, 6)] := by
  refine ⟨by decide, by decide⟩

theorem mcfParseSchedule_eq_map (argv : List Nat) (packets : Nat) :
    mcfParseSchedule argv packets = (List.range packets).map
      (fun t => (argv.getD (5 + 3 * t) 0, argv.getD (5 + 3 * t + 1) 0,
                 argv.getD (5 + 3 * t + 2) 0)) := by
  rw [mcfParseSchedule]
  have := foldl_append_singleton
    (fun t => (argv.getD (5 + 3 * t) 0, argv.getD (5 + 3 * t + 1) 0,
               argv.getD (5 + 3 * t + 2) 0))
    (List.range packets) []
  simpa using this

theorem mcfMainLoop_spec (packets : Nat)
    (outcome : Nat → Option (Int × List (Nat × Nat))) :
    (mcfMainLoop packets outcome).1 ≤ 0 ∧
    (mcfMainLoop packets outcome = (0, []) ∨
      ∃ i, 1 ≤ i ∧ i ≤ packets ∧ outcome i = some (mcfMainLoop packets outcome)) := by
  have haux : ∀ (l : List Nat) (acc : Int × List (Nat × Nat)),
      acc.1 ≤ 0 → (acc = (0, []) ∨ ∃ i, 1 ≤ i ∧ i ≤ packets ∧ outcome i = some acc) →
      (∀ k ∈ l, k + 1 ≤ packets) →
      (l.foldl (fun acc k =>
        match outcome (k + 1) with
        | some cm => if cm.1 < acc.1 then cm else acc
        | none => acc) acc).1 ≤ 0 ∧
      ((l.foldl (fun acc k =>
        match outcome (k + 1) with
        | some cm => if cm.1 < acc.1 then cm else acc
        | none => acc) acc) = (0, []) ∨
       ∃ i, 1 ≤ i ∧ i ≤ packets ∧ outcome i = some (l.foldl (fun acc k =>
        match outcome (k + 1) with
        | some cm => if cm.1 < acc.1 then cm else acc
        | none => acc) acc)) := by
    intro l
    induction l with
    | nil => exact fun acc h1 h2 _ => ⟨h1, h2⟩
    | cons k t ih =>
        intro acc h1 h2 hbound
        simp only [List.foldl_cons]
        have hkb : k + 1 ≤ packets := hbound k (List.mem_cons_self k t)
        have htb : ∀ k2 ∈ t, k2 + 1 ≤ packets :=
          fun k2 hk2 => hbound k2 (List.mem_cons_of_mem _ hk2)
        cases hout : outcome (k + 1) with
        | none =>
            simp only [hout]
            exact ih acc h1 h2 htb
        | some cm =>
            simp only [hout]
            by_cases hlt : cm.1 < acc.1
            · rw [if_pos hlt]
              refine ih cm (by omega) ?_ htb
              right
              exact ⟨k + 1, by omega, hkb, by rw [hout]⟩
            · rw [if_neg hlt]
              exact ih acc h1 h2 htb
  have := haux (List.range packets) (0, []) (by omega) (Or.inl rfl)
    (fun k hk => by
      have := List.mem_range.mp hk
      omega)
  exact this

theorem mcfOutputLines_id (m : List (Nat × Nat)) : mcfOutputLines m = m := by
  rw [mcfOutputLines]
  have := foldl_append_singleton (fun pr : Nat × Nat => (pr.1, pr.2)) m []
  simp only [List.nil_append] at this
  rw [this]
  exact List.map_id _

/-- C7 amended: the CLI is positional rounds packets ruType totalTones followed
directly by the [stationArrival stationDeadline stationWeight] triples starting
at argv 5 — there is no supplyFlow argument, the tool iterates supplyFlow
internally over 1..packets — and mcf.output receives one
packetIndex,roundIndex line per entry of the final packetToRoundMap, which is
either empty with globalMinCost 0 (no improving solve) or exactly the readback
of some OPTIMAL solve with supplyFlow between 1 and packets whose cost is the
final (nonpositive) globalMinCost. -/
theorem c7_cli_layout :
    (∀ (argv : List Nat) (packets t : Nat), t < packets →
      (mcfParseSchedule argv packets).length = packets ∧
      (mcfParseSchedule argv packets).getD t (0, 0, 0) =
        (argv.getD (5 + 3 * t) 0, argv.getD (5 + 3 * t + 1) 0,
         argv.getD (5 + 3 * t + 2) 0)) ∧
    (∀ (packets : Nat) (outcome : Nat → Option (Int × List (Nat × Nat))),
      (mcfMainLoop packets outcome).1 ≤ 0 ∧
      (mcfMainLoop packets outcome = (0, []) ∨
        ∃ i, 1 ≤ i ∧ i ≤ packets ∧ outcome i = some (mcfMainLoop packets outcome))) ∧
    (∀ m : List (Nat × Nat), mcfOutputLines m = m) := by
  refine ⟨?_, mcfMainLoop_spec, mcfOutputLines_id⟩
  intro argv packets t ht
  rw [mcfParseSchedule_eq_map]
  constructor
  · simp
  · rw [List.getD_eq_getElem _ _ (by simpa using ht)]
    simp

/-- Witness for C7 on the counterexample command line (packets = 2, t = 1). -/
theorem c7_cli_layout_witness :
    ((mcfParseSchedule [0, 4, 2, 4, 484, 1, 2, 3, 4, 5, 6, 7] 2).length = 2 ∧
      (mcfParseSchedule [0, 4, 2, 4, 484, 1, 2, 3, 4, 5, 6, 7] 2).getD 1 (0, 0, 0) =
        (List.getD [0, 4, 2, 4, 484, 1, 2, 3, 4, 5, 6, 7] (5 + 3 * 1) 0,
         List.getD [0, 4, 2, 4, 484, 1, 2, 3, 4, 5, 6, 7] (5 + 3 * 1 + 1) 0,
         List.getD [0, 4, 2, 4, 484, 1, 2, 3, 4, 5, 6, 7] (5 + 3 * 1 + 2) 0)) ∧
    mcfOutputLines [(0, 1), (1, 0)] = [(0, 1), (1, 0)] :=
  ⟨c7_cli_layout.1 [0, 4, 2, 4, 484, 1, 2, 3, 4, 5, 6, 7] 2 1 (by decide),
   c7_cli_layout.2.2 [(0, 1), (1, 0)]⟩
